import Mathlib

/-!
Verification of the cereal boundary-aware field-transformation engine
(src/processor.go and supporting files), shallowly embedded in Lean.

Go bytes are modelled as `Fin 256`; Go strings (which are arbitrary byte
sequences) as lists of bytes.  The base64 standard encoding used by
`applyEncrypt`/`applyDecrypt` (Go's `encoding/base64.StdEncoding`) is
implemented concretely below (canonical padded alphabet; the stdlib's
tolerance for embedded newlines is not modelled, as no claim involves it).
-/

namespace Cereal

/-- A Go byte. -/
abbrev Byte : Type := Fin 256

/-- A Go string / byte slice: an arbitrary byte sequence. -/
abbrev GoStr : Type := List Byte

/-- Build a byte from a natural number (mod 256). -/
def mkByte (n : Nat) : Byte := ⟨n % 256, Nat.mod_lt _ (by decide)⟩

/-- Embed an ASCII Lean string literal as a Go string. -/
def gs (s : String) : GoStr := s.toList.map (fun c => mkByte c.toNat)

/-- The base64 padding character. -/
def padByte : Byte := ⟨61, by decide⟩

/-- Standard base64 alphabet: sextet value to ASCII code. -/
def sext (s : Nat) : Byte :=
  mkByte (if s < 26 then 65 + s
    else if s < 52 then 71 + s
    else if s < 62 then s - 4
    else if s = 62 then 43 else 47)

/-- Inverse alphabet lookup: ASCII code to sextet value. -/
def unsext (c : Byte) : Option Nat :=
  if 65 ≤ c.val ∧ c.val ≤ 90 then some (c.val - 65)
  else if 97 ≤ c.val ∧ c.val ≤ 122 then some (c.val - 71)
  else if 48 ≤ c.val ∧ c.val ≤ 57 then some (c.val + 4)
  else if c.val = 43 then some 62
  else if c.val = 47 then some 63
  else none

/-- Base64 standard encoding with padding (`base64.StdEncoding.EncodeToString`). -/
def encodeB64 : GoStr → GoStr
  | a :: b :: c :: rest =>
      sext (a.val / 4) :: sext ((a.val % 4) * 16 + b.val / 16) ::
        sext ((b.val % 16) * 4 + c.val / 64) :: sext (c.val % 64) :: encodeB64 rest
  | [a, b] =>
      [sext (a.val / 4), sext ((a.val % 4) * 16 + b.val / 16),
        sext ((b.val % 16) * 4), padByte]
  | [a] => [sext (a.val / 4), sext ((a.val % 4) * 16), padByte, padByte]
  | [] => []

/-- Decode the final quad of a base64 string, handling padding. -/
def decodeQuadLast (a b c d : Byte) : Option GoStr :=
  if d = padByte then
    if c = padByte then do
      let s1 ← unsext a
      let s2 ← unsext b
      some [mkByte (s1 * 4 + s2 / 16)]
    else do
      let s1 ← unsext a
      let s2 ← unsext b
      let s3 ← unsext c
      some [mkByte (s1 * 4 + s2 / 16), mkByte ((s2 % 16) * 16 + s3 / 4)]
  else do
    let s1 ← unsext a
    let s2 ← unsext b
    let s3 ← unsext c
    let s4 ← unsext d
    some [mkByte (s1 * 4 + s2 / 16), mkByte ((s2 % 16) * 16 + s3 / 4),
      mkByte ((s3 % 4) * 64 + s4)]

/-- Base64 standard decoding (`base64.StdEncoding.DecodeString`): rejects
inputs of length not a multiple of four, characters outside the alphabet,
and misplaced padding. -/
def decodeB64 : GoStr → Option GoStr
  | [] => some []
  | a :: b :: c :: d :: rest =>
      if rest.isEmpty then decodeQuadLast a b c d
      else do
        let s1 ← unsext a
        let s2 ← unsext b
        let s3 ← unsext c
        let s4 ← unsext d
        let tail ← decodeB64 rest
        some (mkByte (s1 * 4 + s2 / 16) :: mkByte ((s2 % 16) * 16 + s3 / 4) ::
          mkByte ((s3 % 4) * 64 + s4) :: tail)
  | _ => none

/-! ## Value model

A live Go value is a tree: leaves are the transformable field shapes
(`string`, `[]byte`, `[]string`, `map[K]string` — map modelled as an
association list in iteration order), inner nodes are structs and
(possibly nil) pointers. -/

/-- The content of a transformable field (processor.go's four shapes). -/
inductive FieldValue where
  | str (s : GoStr)
  | bytes (b : GoStr)
  | strList (l : List GoStr)
  | strMap (m : List (GoStr × GoStr))
deriving DecidableEq

/-- A live value: transformable leaf, struct, or pointer (none = nil). -/
inductive GoValue where
  | leaf (v : FieldValue)
  | strukt (fields : List GoValue)
  | ptr (inner : Option GoValue)

mutual

def GoValue.deq : (a b : GoValue) → Decidable (a = b)
  | .leaf x, .leaf y =>
      match decEq x y with
      | isTrue h => isTrue (by rw [h])
      | isFalse h => isFalse (fun hc => by cases hc; exact h rfl)
  | .leaf _, .strukt _ => isFalse (fun hc => by cases hc)
  | .leaf _, .ptr _ => isFalse (fun hc => by cases hc)
  | .strukt _, .leaf _ => isFalse (fun hc => by cases hc)
  | .strukt xs, .strukt ys =>
      match GoValue.deqList xs ys with
      | isTrue h => isTrue (by rw [h])
      | isFalse h => isFalse (fun hc => by cases hc; exact h rfl)
  | .strukt _, .ptr _ => isFalse (fun hc => by cases hc)
  | .ptr _, .leaf _ => isFalse (fun hc => by cases hc)
  | .ptr _, .strukt _ => isFalse (fun hc => by cases hc)
  | .ptr x, .ptr y =>
      match GoValue.deqOpt x y with
      | isTrue h => isTrue (by rw [h])
      | isFalse h => isFalse (fun hc => by cases hc; exact h rfl)

def GoValue.deqList : (a b : List GoValue) → Decidable (a = b)
  | [], [] => isTrue rfl
  | [], _ :: _ => isFalse (fun hc => by cases hc)
  | _ :: _, [] => isFalse (fun hc => by cases hc)
  | x :: xs, y :: ys =>
      match GoValue.deq x y, GoValue.deqList xs ys with
      | isTrue h1, isTrue h2 => isTrue (by rw [h1, h2])
      | isFalse h1, _ => isFalse (fun hc => by cases hc; exact h1 rfl)
      | _, isFalse h2 => isFalse (fun hc => by cases hc; exact h2 rfl)

def GoValue.deqOpt : (a b : Option GoValue) → Decidable (a = b)
  | none, none => isTrue rfl
  | none, some _ => isFalse (fun hc => by cases hc)
  | some _, none => isFalse (fun hc => by cases hc)
  | some x, some y =>
      match GoValue.deq x y with
      | isTrue h => isTrue (by rw [h])
      | isFalse h => isFalse (fun hc => by cases hc; exact h rfl)

end

instance : DecidableEq GoValue := GoValue.deq

/-- One navigation step of `getField`: a struct field index, and whether a
pointer dereference follows (the position is in `plan.ptrIndices`). -/
abbrev Step : Type := Nat × Bool

/-- `processorFieldPlan` from processor.go. -/
structure FieldPlan where
  index : List Nat
  name : String
  tagVal : GoStr
  isBytes : Bool
  ptrIndices : List Nat
  isSlice : Bool
  isMap : Bool
deriving DecidableEq

/-- The navigation steps of a plan: pair each index with whether its
position appears in `ptrIndices` (processor.go getField's ptrSet). -/
def FieldPlan.steps (p : FieldPlan) : List Step :=
  p.index.enum.map (fun pr => (pr.2, p.ptrIndices.contains pr.1))

/-- Navigate a step path from a value, mirroring getField: take the struct
field at each index, dereference where flagged, and fail (skip) on a nil
pointer. -/
def getNode : GoValue → List Step → Option GoValue
  | v, [] => some v
  | .strukt fields, (idx, deref) :: rest =>
      match fields[idx]? with
      | some f =>
          if deref then
            match f with
            | .ptr (some inner) => getNode inner rest
            | _ => none
          else getNode f rest
      | none => none
  | _, _ :: _ => none

/-- Read the transformable field at a path; `none` means getField's
skip (nil pointer on the path) or an unreachable shape mismatch. -/
def getLeaf (v : GoValue) (steps : List Step) : Option FieldValue :=
  match getNode v steps with
  | some (.leaf fv) => some fv
  | _ => none

/-- Write a transformable field at a path (the functional image of the
reflection-based in-place store).  Invalid paths leave the value unchanged. -/
def setLeaf : GoValue → List Step → FieldValue → GoValue
  | .leaf _, [], fv => .leaf fv
  | v, [], _ => v
  | .strukt fields, (idx, deref) :: rest, fv =>
      match fields[idx]? with
      | some f =>
          let f' := if deref then
              match f with
              | .ptr (some inner) => GoValue.ptr (some (setLeaf inner rest fv))
              | other => other
            else setLeaf f rest fv
          .strukt (fields.set idx f')
      | none => .strukt fields
  | v, _ :: _, _ => v

/-- Two step paths address independent fields: at the first point of
difference the struct field indices differ. -/
def stepsDiverge : List Step → List Step → Bool
  | (i, d) :: ps, (j, e) :: qs =>
      if i = j then (if d = e then stepsDiverge ps qs else false) else true
  | _, _ => false

/-! ## Capabilities, errors and the transform engine -/

/-- The Encryptor capability contract. -/
structure Encryptor where
  encrypt : GoStr → Except String GoStr
  decrypt : GoStr → Except String GoStr

/-- The Hasher capability contract (result is a Go string). -/
structure Hasher where
  hash : GoStr → Except String GoStr

/-- The Masker capability contract (src/mask.go: no error return). -/
structure Masker where
  mask : GoStr → GoStr

/-- Structured model of the engine's error values.  processor.go builds
errors with fmt.Errorf; the distinct constructors mirror its distinct
wrapping messages.  `nilCapability` models the panic of calling a method
on a nil capability fetched from a registry map (prevented by validation). -/
inductive ProcErr where
  | missingHasher (algo : GoStr) (field : String)
  | missingEncryptor (algo : GoStr) (field : String)
  | missingMasker (mt : GoStr) (field : String)
  | unmarshalFailed (cause : String)
  | marshalFailed (cause : String)
  | nilCapability (field : String)
  | hashFailed (field : String) (cause : String)
  | base64DecodeFailed (field : String)
  | decryptFailed (field : String) (cause : String)
  | encryptFailed (field : String) (cause : String)
  | overrideFailed (op : String) (cause : String)
deriving DecidableEq

/-- Diagnostic name of a sequence element ("%s[%d]"). -/
def elemName (name : String) (i : Nat) : String :=
  name ++ "[" ++ toString i ++ "]"

/-- Diagnostic name of a mapping entry ("%s[%v]"). -/
def keyElemName (name : String) (k : GoStr) : String :=
  name ++ "[" ++ toString (k.map Fin.val) ++ "]"

/-- Invoke an encryptor's Encrypt; a missing registry entry is the nil
method-call panic. -/
def callEncrypt (enc? : Option Encryptor) (name : String) (pt : GoStr) :
    Except ProcErr GoStr :=
  match enc? with
  | none => .error (.nilCapability name)
  | some enc =>
      match enc.encrypt pt with
      | .error e => .error (.encryptFailed name e)
      | .ok ct => .ok ct

/-- Invoke an encryptor's Decrypt. -/
def callDecrypt (enc? : Option Encryptor) (name : String) (ct : GoStr) :
    Except ProcErr GoStr :=
  match enc? with
  | none => .error (.nilCapability name)
  | some enc =>
      match enc.decrypt ct with
      | .error e => .error (.decryptFailed name e)
      | .ok pt => .ok pt

/-- Invoke a hasher's Hash. -/
def callHash (h? : Option Hasher) (name : String) (pt : GoStr) :
    Except ProcErr GoStr :=
  match h? with
  | none => .error (.nilCapability name)
  | some h =>
      match h.hash pt with
      | .error e => .error (.hashFailed name e)
      | .ok s => .ok s

/-- Encrypt every element of a []string field (applyEncrypt's slice loop). -/
def encList (enc? : Option Encryptor) (name : String) :
    Nat → List GoStr → Except ProcErr (List GoStr)
  | _, [] => .ok []
  | i, s :: rest => do
      let ct ← callEncrypt enc? (elemName name i) s
      let tail ← encList enc? name (i + 1) rest
      .ok (encodeB64 ct :: tail)

/-- Encrypt every value of a map[K]string field (applyEncrypt's map loop). -/
def encMap (enc? : Option Encryptor) (name : String) :
    List (GoStr × GoStr) → Except ProcErr (List (GoStr × GoStr))
  | [] => .ok []
  | (k, s) :: rest => do
      let ct ← callEncrypt enc? (keyElemName name k) s
      let tail ← encMap enc? name rest
      .ok ((k, encodeB64 ct) :: tail)

/-- Decrypt every element of a []string field (applyDecrypt's slice loop):
base64-decode first, then call the capability. -/
def decList (enc? : Option Encryptor) (name : String) :
    Nat → List GoStr → Except ProcErr (List GoStr)
  | _, [] => .ok []
  | i, s :: rest =>
      match decodeB64 s with
      | none => .error (.base64DecodeFailed (elemName name i))
      | some ct => do
          let pt ← callDecrypt enc? (elemName name i) ct
          let tail ← decList enc? name (i + 1) rest
          .ok (pt :: tail)

/-- Decrypt every value of a map[K]string field (applyDecrypt's map loop). -/
def decMap (enc? : Option Encryptor) (name : String) :
    List (GoStr × GoStr) → Except ProcErr (List (GoStr × GoStr))
  | [] => .ok []
  | (k, s) :: rest =>
      match decodeB64 s with
      | none => .error (.base64DecodeFailed (keyElemName name k))
      | some ct => do
          let pt ← callDecrypt enc? (keyElemName name k) ct
          let tail ← decMap enc? name rest
          .ok ((k, pt) :: tail)

/-- Hash every element of a []string field (applyHash's slice loop). -/
def hashList (h? : Option Hasher) (name : String) :
    Nat → List GoStr → Except ProcErr (List GoStr)
  | _, [] => .ok []
  | i, s :: rest => do
      let hs ← callHash h? (elemName name i) s
      let tail ← hashList h? name (i + 1) rest
      .ok (hs :: tail)

/-- Hash every value of a map[K]string field (applyHash's map loop). -/
def hashMap (h? : Option Hasher) (name : String) :
    List (GoStr × GoStr) → Except ProcErr (List (GoStr × GoStr))
  | [] => .ok []
  | (k, s) :: rest => do
      let hs ← callHash h? (keyElemName name k) s
      let tail ← hashMap h? name rest
      .ok ((k, hs) :: tail)

/-- Transform one field for store/encrypt, dispatching on the plan's shape
flags exactly as applyEncrypt does.  Shape mismatches cannot occur for
compiled plans and are identity here. -/
def encryptFV (enc? : Option Encryptor) (plan : FieldPlan) (fv : FieldValue) :
    Except ProcErr FieldValue :=
  if plan.isSlice then
    match fv with
    | .strList l => do
        let l' ← encList enc? plan.name 0 l
        .ok (.strList l')
    | _ => .ok fv
  else if plan.isMap then
    match fv with
    | .strMap m => do
        let m' ← encMap enc? plan.name m
        .ok (.strMap m')
    | _ => .ok fv
  else if plan.isBytes then
    match fv with
    | .bytes b => do
        let ct ← callEncrypt enc? plan.name b
        .ok (.bytes ct)
    | _ => .ok fv
  else
    match fv with
    | .str s => do
        let ct ← callEncrypt enc? plan.name s
        .ok (.str (encodeB64 ct))
    | _ => .ok fv

/-- Transform one field for load/decrypt (applyDecrypt): for text shapes,
base64-decode before invoking the capability; byte buffers hold raw
ciphertext. -/
def decryptFV (enc? : Option Encryptor) (plan : FieldPlan) (fv : FieldValue) :
    Except ProcErr FieldValue :=
  if plan.isSlice then
    match fv with
    | .strList l => do
        let l' ← decList enc? plan.name 0 l
        .ok (.strList l')
    | _ => .ok fv
  else if plan.isMap then
    match fv with
    | .strMap m => do
        let m' ← decMap enc? plan.name m
        .ok (.strMap m')
    | _ => .ok fv
  else if plan.isBytes then
    match fv with
    | .bytes b => do
        let pt ← callDecrypt enc? plan.name b
        .ok (.bytes pt)
    | _ => .ok fv
  else
    match fv with
    | .str s =>
        match decodeB64 s with
        | none => .error (.base64DecodeFailed plan.name)
        | some ct => do
            let pt ← callDecrypt enc? plan.name ct
            .ok (.str pt)
    | _ => .ok fv

/-- Transform one field for receive/hash (applyHash). -/
def hashFV (h? : Option Hasher) (plan : FieldPlan) (fv : FieldValue) :
    Except ProcErr FieldValue :=
  if plan.isSlice then
    match fv with
    | .strList l => do
        let l' ← hashList h? plan.name 0 l
        .ok (.strList l')
    | _ => .ok fv
  else if plan.isMap then
    match fv with
    | .strMap m => do
        let m' ← hashMap h? plan.name m
        .ok (.strMap m')
    | _ => .ok fv
  else if plan.isBytes then
    match fv with
    | .bytes b => do
        let hs ← callHash h? plan.name b
        .ok (.bytes hs)
    | _ => .ok fv
  else
    match fv with
    | .str s => do
        let hs ← callHash h? plan.name s
        .ok (.str hs)
    | _ => .ok fv

/-- Transform one field for send/mask (applyMask); the masker itself never
fails, only a missing capability (nil method call) does. -/
def maskFV (m? : Option Masker) (plan : FieldPlan) (fv : FieldValue) :
    Except ProcErr FieldValue :=
  match m? with
  | none => .error (.nilCapability plan.name)
  | some m =>
      if plan.isSlice then
        match fv with
        | .strList l => .ok (.strList (l.map m.mask))
        | _ => .ok fv
      else if plan.isMap then
        match fv with
        | .strMap kvs => .ok (.strMap (kvs.map (fun kv => (kv.1, m.mask kv.2))))
        | _ => .ok fv
      else
        match fv with
        | .str s => .ok (.str (m.mask s))
        | .bytes b => .ok (.bytes (m.mask b))
        | _ => .ok fv

/-- Transform one field for send/redact (applyRedact): write the tag's
literal replacement value; for maps, only values change, keys stay. -/
def redactFV (plan : FieldPlan) (fv : FieldValue) : FieldValue :=
  if plan.isSlice then
    match fv with
    | .strList l => .strList (l.map (fun _ => plan.tagVal))
    | other => other
  else if plan.isMap then
    match fv with
    | .strMap kvs => .strMap (kvs.map (fun kv => (kv.1, plan.tagVal)))
    | other => other
  else
    match fv with
    | .str _ => .str plan.tagVal
    | .bytes _ => .bytes plan.tagVal
    | other => other

/-- One plan application: navigate to the field (skipping entirely when an
optional reference on the path is nil), transform, write back. -/
def transformStep (f : FieldValue → Except ProcErr FieldValue)
    (steps : List Step) (v : GoValue) : Except ProcErr GoValue :=
  match getLeaf v steps with
  | none => .ok v
  | some fv => do
      let fv' ← f fv
      .ok (setLeaf v steps fv')

/-- applyHash from processor.go. -/
def applyHash (hs : GoStr → Option Hasher) :
    List FieldPlan → GoValue → Except ProcErr GoValue
  | [], v => .ok v
  | plan :: rest, v => do
      let v' ← transformStep (hashFV (hs plan.tagVal) plan) plan.steps v
      applyHash hs rest v'

/-- applyDecrypt from processor.go. -/
def applyDecrypt (encs : GoStr → Option Encryptor) :
    List FieldPlan → GoValue → Except ProcErr GoValue
  | [], v => .ok v
  | plan :: rest, v => do
      let v' ← transformStep (decryptFV (encs plan.tagVal) plan) plan.steps v
      applyDecrypt encs rest v'

/-- applyEncrypt from processor.go. -/
def applyEncrypt (encs : GoStr → Option Encryptor) :
    List FieldPlan → GoValue → Except ProcErr GoValue
  | [], v => .ok v
  | plan :: rest, v => do
      let v' ← transformStep (encryptFV (encs plan.tagVal) plan) plan.steps v
      applyEncrypt encs rest v'

/-- applyMask from processor.go. -/
def applyMask (ms : GoStr → Option Masker) :
    List FieldPlan → GoValue → Except ProcErr GoValue
  | [], v => .ok v
  | plan :: rest, v => do
      let v' ← transformStep (maskFV (ms plan.tagVal) plan) plan.steps v
      applyMask ms rest v'

/-- applyRedact from processor.go; it has no failing path. -/
def applyRedact : List FieldPlan → GoValue → GoValue
  | [], v => v
  | plan :: rest, v =>
      let v' := match getLeaf v plan.steps with
        | none => v
        | some fv => setLeaf v plan.steps (redactFV plan fv)
      applyRedact rest v'

/-! ## Processor, validation and the four boundary operations -/

/-- The external Codec contract (registry.go): `Marshal` receives the nil
pointer when the input object is nil. -/
structure Codec where
  contentType : String
  marshal : Option GoValue → Except String GoStr
  unmarshal : GoStr → Except String GoValue

/-- The Processor (processor.go).  Registries are per-instance maps;
`validateCache` is the sync.Once validation state (`some r` once run);
the five `Option` override fields model whether the type implements the
corresponding override interface, and with which method. -/
structure Processor where
  codec : Codec
  encryptors : GoStr → Option Encryptor
  hashers : GoStr → Option Hasher
  maskers : GoStr → Option Masker
  validateCache : Option (Option ProcErr)
  hashFields : List FieldPlan
  decryptFields : List FieldPlan
  encryptFields : List FieldPlan
  maskFields : List FieldPlan
  redactFields : List FieldPlan
  typeName : String
  hashable : Option (GoValue → (GoStr → Option Hasher) → Except String GoValue)
  decryptable : Option (GoValue → (GoStr → Option Encryptor) → Except String GoValue)
  encryptable : Option (GoValue → (GoStr → Option Encryptor) → Except String GoValue)
  maskable : Option (GoValue → (GoStr → Option Masker) → Except String GoValue)
  redactable : Option (GoValue → Except String GoValue)
  cloneFn : GoValue → GoValue

/-- SetEncryptor: registry update, validation state untouched. -/
def Processor.setEncryptor (p : Processor) (algo : GoStr) (enc : Encryptor) :
    Processor :=
  { p with encryptors := fun a => if a = algo then some enc else p.encryptors a }

/-- SetHasher: registry update, validation state untouched. -/
def Processor.setHasher (p : Processor) (algo : GoStr) (h : Hasher) : Processor :=
  { p with hashers := fun a => if a = algo then some h else p.hashers a }

/-- SetMasker: registry update, validation state untouched. -/
def Processor.setMasker (p : Processor) (mt : GoStr) (m : Masker) : Processor :=
  { p with maskers := fun a => if a = mt then some m else p.maskers a }

/-- First plan in the list whose capability parameter has no registered
capability, reported as validateCapabilities does. -/
def firstMissing (reg : GoStr → Bool) (mk : GoStr → String → ProcErr) :
    List FieldPlan → Option ProcErr
  | [] => none
  | plan :: rest =>
      if reg plan.tagVal then firstMissing reg mk rest
      else some (mk plan.tagVal plan.name)

/-- validateCapabilities from processor.go: hashers, then decrypt
encryptors, then store encryptors, then maskers; each group skipped when
the corresponding override interface is implemented. -/
def Processor.validateCapabilities (p : Processor) : Option ProcErr :=
  let hashErr := if p.hashable.isSome then none
    else firstMissing (fun a => (p.hashers a).isSome)
      (fun a f => .missingHasher a f) p.hashFields
  match hashErr with
  | some e => some e
  | none =>
    let decErr := if p.decryptable.isSome then none
      else firstMissing (fun a => (p.encryptors a).isSome)
        (fun a f => .missingEncryptor a f) p.decryptFields
    match decErr with
    | some e => some e
    | none =>
      let encErr := if p.encryptable.isSome then none
        else firstMissing (fun a => (p.encryptors a).isSome)
          (fun a f => .missingEncryptor a f) p.encryptFields
      match encErr with
      | some e => some e
      | none =>
        if p.maskable.isSome then none
        else firstMissing (fun a => (p.maskers a).isSome)
          (fun a f => .missingMasker a f) p.maskFields

/-- The result ensureValidated returns: the cached result if validation
already ran, otherwise the outcome of running it now. -/
def Processor.ensureValidatedRes (p : Processor) : Option ProcErr :=
  match p.validateCache with
  | some r => r
  | none => p.validateCapabilities

/-- The processor state after ensureValidated: result memoized. -/
def Processor.runValidation (p : Processor) : Processor :=
  { p with validateCache := some p.ensureValidatedRes }

/-- Validate() — returns the (memoized) result and the updated state. -/
def Processor.validate (p : Processor) : Option ProcErr × Processor :=
  (p.ensureValidatedRes, p.runValidation)

/-- Receive: validate, unmarshal, then either the Hashable override alone
or the per-field hash traversal. -/
def Processor.receive (p : Processor) (data : GoStr) :
    Except ProcErr GoValue × Processor :=
  let p' := p.runValidation
  match p.ensureValidatedRes with
  | some e => (.error e, p')
  | none =>
    match p.codec.unmarshal data with
    | .error e => (.error (.unmarshalFailed e), p')
    | .ok obj =>
      match p.hashable with
      | some h =>
          match h obj p.hashers with
          | .error e => (.error (.overrideFailed "hash" e), p')
          | .ok obj' => (.ok obj', p')
      | none =>
          match applyHash p.hashers p.hashFields obj with
          | .error e => (.error e, p')
          | .ok obj' => (.ok obj', p')

/-- Load: validate, unmarshal, then either the Decryptable override alone
or the per-field decrypt traversal. -/
def Processor.load (p : Processor) (data : GoStr) :
    Except ProcErr GoValue × Processor :=
  let p' := p.runValidation
  match p.ensureValidatedRes with
  | some e => (.error e, p')
  | none =>
    match p.codec.unmarshal data with
    | .error e => (.error (.unmarshalFailed e), p')
    | .ok obj =>
      match p.decryptable with
      | some d =>
          match d obj p.encryptors with
          | .error e => (.error (.overrideFailed "decrypt" e), p')
          | .ok obj' => (.ok obj', p')
      | none =>
          match applyDecrypt p.encryptors p.decryptFields obj with
          | .error e => (.error e, p')
          | .ok obj' => (.ok obj', p')

/-- Helper: marshal through the codec, wrapping its error. -/
def Processor.marshalOut (p : Processor) (w : Option GoValue) :
    Except ProcErr GoStr :=
  match p.codec.marshal w with
  | .error e => .error (.marshalFailed e)
  | .ok bs => .ok bs

/-- Store: validate; nil marshals as nil; otherwise clone, encrypt the
clone (override or traversal), marshal.  The middle component is the
caller's value as observable after the call: every mutation targets the
clone, never the input. -/
def Processor.store (p : Processor) (obj : Option GoValue) :
    Except ProcErr GoStr × Option GoValue × Processor :=
  let p' := p.runValidation
  match p.ensureValidatedRes with
  | some e => (.error e, obj, p')
  | none =>
    match obj with
    | none => (p.marshalOut none, none, p')
    | some v =>
        let clone := p.cloneFn v
        match p.encryptable with
        | some e =>
            match e clone p.encryptors with
            | .error err => (.error (.overrideFailed "encrypt" err), some v, p')
            | .ok clone' => (p.marshalOut (some clone'), some v, p')
        | none =>
            match applyEncrypt p.encryptors p.encryptFields clone with
            | .error err => (.error err, some v, p')
            | .ok clone' => (p.marshalOut (some clone'), some v, p')

/-- Send: validate; nil marshals as nil; otherwise clone, mask then
redact the clone (override or traversal for each), marshal.  The middle
component is the caller's value as observable after the call. -/
def Processor.send (p : Processor) (obj : Option GoValue) :
    Except ProcErr GoStr × Option GoValue × Processor :=
  let p' := p.runValidation
  match p.ensureValidatedRes with
  | some e => (.error e, obj, p')
  | none =>
    match obj with
    | none => (p.marshalOut none, none, p')
    | some v =>
        let clone := p.cloneFn v
        let masked : Except ProcErr GoValue :=
          match p.maskable with
          | some m =>
              match m clone p.maskers with
              | .error e => .error (.overrideFailed "mask" e)
              | .ok w => .ok w
          | none => applyMask p.maskers p.maskFields clone
        match masked with
        | .error e => (.error e, some v, p')
        | .ok w =>
            let redacted : Except ProcErr GoValue :=
              match p.redactable with
              | some r =>
                  match r w with
                  | .error e => .error (.overrideFailed "redact" e)
                  | .ok w' => .ok w'
              | none => .ok (applyRedact p.redactFields w)
            match redacted with
            | .error e => (.error e, some v, p')
            | .ok w' => (p.marshalOut (some w'), some v, p')

/-! ## Field-plan compiler (buildFieldPlansRecursive, NewProcessor) -/

/-- Valid encryption algorithm identifiers (EncryptAES/RSA/Envelope). -/
def IsValidEncryptAlgo (a : GoStr) : Bool :=
  a == gs "aes" || a == gs "rsa" || a == gs "envelope"

/-- Valid hash algorithm identifiers (Argon2/Bcrypt/SHA256/SHA512). -/
def IsValidHashAlgo (a : GoStr) : Bool :=
  a == gs "argon2" || a == gs "bcrypt" || a == gs "sha256" || a == gs "sha512"

/-- Valid mask type identifiers (mask.go constants). -/
def IsValidMaskType (a : GoStr) : Bool :=
  a == gs "ssn" || a == gs "email" || a == gs "phone" || a == gs "card" ||
    a == gs "ip" || a == gs "uuid" || a == gs "iban" || a == gs "name"

/-- The transformable leaf shapes recognised by the compiler. -/
inductive LeafShape where
  | sString
  | sBytes
  | sStringSlice
  | sStringMap
deriving DecidableEq

/-- Field metadata as seen by buildFieldPlansRecursive: a transformable
leaf with its context tags, a nested struct (recursed into), a pointer to
a struct (recursed into with the position recorded), or any other field
(skipped). -/
inductive FieldMeta where
  | leafField (name : String) (index : List Nat) (shape : LeafShape)
      (tags : List (String × GoStr))
  | structField (name : String) (index : List Nat) (nested : List FieldMeta)
  | ptrStructField (name : String) (index : List Nat) (nested : List FieldMeta)
  | otherField (name : String) (index : List Nat)

/-- Type metadata (sentinel.Metadata). -/
structure TypeMeta where
  typeName : String
  fields : List FieldMeta

/-- typeFieldPlans: the compiled per-boundary plan lists. -/
structure TypeFieldPlans where
  hashFields : List FieldPlan
  decryptFields : List FieldPlan
  encryptFields : List FieldPlan
  maskFields : List FieldPlan
  redactFields : List FieldPlan
  typeName : String

/-- Compile errors (the fmt.Errorf "invalid ... for field ..." returns). -/
inductive CompileErr where
  | invalidHashAlgo (param : GoStr) (field : String)
  | invalidEncryptAlgo (param : GoStr) (field : String)
  | invalidMaskType (param : GoStr) (field : String)
deriving DecidableEq

/-- Dotted field name accumulation. -/
def fullNameOf (namePrefix name : String) : String :=
  if namePrefix = "" then name else namePrefix ++ "." ++ name

/-- One directive check of buildFieldPlansRecursive: if the tag is
present, validate its capability parameter (fatal compile error when
unrecognised) and append the plan. -/
def tagStep (lookupVal : Option GoStr) (valid : GoStr → Bool)
    (mkErr : GoStr → CompileErr) (add : GoStr → TypeFieldPlans)
    (plans : TypeFieldPlans) : Except CompileErr TypeFieldPlans :=
  match lookupVal with
  | some val => if valid val then .ok (add val) else .error (mkErr val)
  | none => .ok plans

/-- Process a transformable leaf's five context tags in source order,
validating capability parameters and appending plans.  send.redact
accepts any literal value (its validity check is constantly true). -/
def processLeaf (plans : TypeFieldPlans) (fullIndex ptrIndices : List Nat)
    (fullName : String) (shape : LeafShape) (tags : List (String × GoStr)) :
    Except CompileErr TypeFieldPlans := do
  let basePlan : FieldPlan :=
    { index := fullIndex, name := fullName, tagVal := [],
      isBytes := shape = .sBytes, ptrIndices := ptrIndices,
      isSlice := shape = .sStringSlice, isMap := shape = .sStringMap }
  let plans ← tagStep (tags.lookup "receive.hash") IsValidHashAlgo
    (fun val => .invalidHashAlgo val fullName)
    (fun val => { plans with
      hashFields := plans.hashFields ++ [{ basePlan with tagVal := val }] })
    plans
  let plans ← tagStep (tags.lookup "load.decrypt") IsValidEncryptAlgo
    (fun val => .invalidEncryptAlgo val fullName)
    (fun val => { plans with
      decryptFields := plans.decryptFields ++ [{ basePlan with tagVal := val }] })
    plans
  let plans ← tagStep (tags.lookup "store.encrypt") IsValidEncryptAlgo
    (fun val => .invalidEncryptAlgo val fullName)
    (fun val => { plans with
      encryptFields := plans.encryptFields ++ [{ basePlan with tagVal := val }] })
    plans
  let plans ← tagStep (tags.lookup "send.mask") IsValidMaskType
    (fun val => .invalidMaskType val fullName)
    (fun val => { plans with
      maskFields := plans.maskFields ++ [{ basePlan with tagVal := val }] })
    plans
  tagStep (tags.lookup "send.redact") (fun _ => true)
    (fun val => .invalidMaskType val fullName)
    (fun val => { plans with
      redactFields := plans.redactFields ++ [{ basePlan with tagVal := val }] })
    plans

/-- buildFieldPlansRecursive: walk fields in order, recursing into nested
structs and pointer-to-struct fields (recording the dereference
position), compiling directives on transformable leaves. -/
def buildFieldsRec :
    List FieldMeta → List Nat → List Nat → String → TypeFieldPlans →
      Except CompileErr TypeFieldPlans
  | [], _, _, _, plans => .ok plans
  | field :: rest, parentIndex, ptrIndices, namePrefix, plans => do
      let plans ← match field with
        | .leafField name index shape tags =>
            processLeaf plans (parentIndex ++ index) ptrIndices
              (fullNameOf namePrefix name) shape tags
        | .structField name index nested =>
            buildFieldsRec nested (parentIndex ++ index) ptrIndices
              (fullNameOf namePrefix name) plans
        | .ptrStructField name index nested =>
            buildFieldsRec nested (parentIndex ++ index)
              (ptrIndices ++ [(parentIndex ++ index).length - 1])
              (fullNameOf namePrefix name) plans
        | .otherField _ _ => .ok plans
      buildFieldsRec rest parentIndex ptrIndices namePrefix plans

/-- buildFieldPlans: compile a type's metadata from the root. -/
def buildFieldPlans (md : TypeMeta) : Except CompileErr TypeFieldPlans :=
  buildFieldsRec md.fields [] [] ""
    { hashFields := [], decryptFields := [], encryptFields := [],
      maskFields := [], redactFields := [], typeName := md.typeName }

/-- The override interfaces a type implements, plus its Clone method. -/
structure TypeOverrides where
  hashable : Option (GoValue → (GoStr → Option Hasher) → Except String GoValue)
  decryptable : Option (GoValue → (GoStr → Option Encryptor) → Except String GoValue)
  encryptable : Option (GoValue → (GoStr → Option Encryptor) → Except String GoValue)
  maskable : Option (GoValue → (GoStr → Option Masker) → Except String GoValue)
  redactable : Option (GoValue → Except String GoValue)
  cloneFn : GoValue → GoValue

/-- NewProcessor: compile (or fail), then assemble the processor with
builtin hashers and maskers (`bh`, `bm` — their cryptographic internals
are external collaborators), empty encryptors, and unrun validation. -/
def newProcessor (md : TypeMeta) (codec : Codec) (bh : GoStr → Option Hasher)
    (bm : GoStr → Option Masker) (ov : TypeOverrides) :
    Except CompileErr Processor :=
  match buildFieldPlans md with
  | .error e => .error e
  | .ok plans =>
      .ok { codec := codec, encryptors := fun _ => none, hashers := bh,
            maskers := bm, validateCache := none,
            hashFields := plans.hashFields,
            decryptFields := plans.decryptFields,
            encryptFields := plans.encryptFields,
            maskFields := plans.maskFields,
            redactFields := plans.redactFields,
            typeName := plans.typeName,
            hashable := ov.hashable, decryptable := ov.decryptable,
            encryptable := ov.encryptable, maskable := ov.maskable,
            redactable := ov.redactable, cloneFn := ov.cloneFn }

/-- The common shape of applyHash/applyDecrypt/applyEncrypt/applyMask. -/
def applyFV (F : FieldPlan → FieldValue → Except ProcErr FieldValue) :
    List FieldPlan → GoValue → Except ProcErr GoValue
  | [], v => .ok v
  | plan :: rest, v => do
      let v' ← transformStep (F plan) plan.steps v
      applyFV F rest v'

/-! ## Encrypt/decrypt round-trip -/

/-- The capability contract assumed by the round-trip property: the
registered encryptor's Decrypt inverts its Encrypt. -/
def EncInverts (enc? : Option Encryptor) : Prop :=
  ∀ enc, enc? = some enc → ∀ pt ct, enc.encrypt pt = .ok ct → enc.decrypt ct = .ok pt

/-- Concrete plans and value for the C8 witness. -/
def c8PlanInner : FieldPlan :=
  { index := [1, 0], name := "Inner.S", tagVal := gs "x", isBytes := false,
    ptrIndices := [0], isSlice := false, isMap := false }

def c8PlanOuter : FieldPlan :=
  { index := [0], name := "S", tagVal := gs "y", isBytes := false,
    ptrIndices := [], isSlice := false, isMap := false }

def c8Value : GoValue := .strukt [.leaf (.str (gs "a")), .ptr none]

/-- C4 witness: concrete processor with an override and two different
plan lists. -/
def c4Codec : Codec :=
  { contentType := "application/json",
    marshal := fun _ => .error "unused",
    unmarshal := fun bs => .ok (.leaf (.str bs)) }

def c4Base : Processor :=
  { codec := c4Codec, encryptors := fun _ => none, hashers := fun _ => none,
    maskers := fun _ => none, validateCache := none, hashFields := [],
    decryptFields := [], encryptFields := [], maskFields := [],
    redactFields := [], typeName := "T",
    hashable := some (fun v _ => .ok v), decryptable := none,
    encryptable := none, maskable := none, redactable := none,
    cloneFn := fun v => v }

/-- Concrete processor for the C9 witness: one scalar decrypt plan whose
stored value "!" is not valid base64. -/
def c9Plan : FieldPlan :=
  { index := [0], name := "Email", tagVal := gs "aes", isBytes := false,
    ptrIndices := [], isSlice := false, isMap := false }

def c9Enc : Encryptor :=
  { encrypt := fun b => .ok b, decrypt := fun b => .ok b }

def c9Proc : Processor :=
  { codec :=
      { contentType := "application/json",
        marshal := fun _ => .error "unused",
        unmarshal := fun _ => .ok (.strukt [.leaf (.str (gs "!"))]) },
    encryptors := fun a => if a = gs "aes" then some c9Enc else none,
    hashers := fun _ => none, maskers := fun _ => none,
    validateCache := none, hashFields := [], decryptFields := [c9Plan],
    encryptFields := [], maskFields := [], redactFields := [],
    typeName := "User", hashable := none, decryptable := none,
    encryptable := none, maskable := none, redactable := none,
    cloneFn := fun v => v }

/-! ## Validation memoization (C6) and missing-capability errors (C7) -/

/-- A configuration mutation: SetEncryptor, SetHasher or SetMasker. -/
inductive ConfigMutation where
  | setEnc (algo : GoStr) (enc : Encryptor)
  | setHash (algo : GoStr) (h : Hasher)
  | setMask (mt : GoStr) (m : Masker)

/-- Apply a sequence of configuration mutations. -/
def applyMutations : List ConfigMutation → Processor → Processor
  | [], p => p
  | .setEnc a e :: rest, p => applyMutations rest (p.setEncryptor a e)
  | .setHash a h :: rest, p => applyMutations rest (p.setHasher a h)
  | .setMask a m :: rest, p => applyMutations rest (p.setMasker a m)

/-- C6 witness: a processor whose cached validation failed; registering
the missing encryptor afterwards changes nothing. -/
def c6Err : ProcErr := .missingEncryptor (gs "aes") "Email"

def c6Proc : Processor :=
  { codec :=
      { contentType := "application/json",
        marshal := fun _ => .error "unused",
        unmarshal := fun _ => .error "unused" },
    encryptors := fun _ => none, hashers := fun _ => none,
    maskers := fun _ => none, validateCache := some (some c6Err),
    hashFields := [], decryptFields := [], encryptFields := [c9Plan],
    maskFields := [], redactFields := [], typeName := "User",
    hashable := none, decryptable := none, encryptable := none,
    maskable := none, redactable := none, cloneFn := fun v => v }

/-- C7 witness: the concrete processor with the "aes"-tagged Email field
and an empty encryptor registry. -/
def c7Proc : Processor :=
  { c6Proc with validateCache := none }

/-- Concrete data for the C5 witness. -/
def c5Plan : FieldPlan :=
  { index := [0], name := "Tags", tagVal := gs "ssn", isBytes := false,
    ptrIndices := [], isSlice := true, isMap := false }

def c5Masker : Masker := { mask := fun _ => gs "*" }

def c5Proc : Processor :=
  { codec :=
      { contentType := "application/json",
        marshal := fun _ => .ok [], unmarshal := fun _ => .error "unused" },
    encryptors := fun _ => none, hashers := fun _ => none,
    maskers := fun a => if a = gs "ssn" then some c5Masker else none,
    validateCache := none, hashFields := [], decryptFields := [],
    encryptFields := [], maskFields := [c5Plan], redactFields := [],
    typeName := "User", hashable := none, decryptable := none,
    encryptable := none, maskable := none, redactable := none,
    cloneFn := fun v => v }

/-- Concrete data for the C10 witness: Email is both masked and redacted
on send; the sent value carries the redact literal. -/
def c10MaskPlan : FieldPlan :=
  { index := [0], name := "Email", tagVal := gs "ssn", isBytes := false,
    ptrIndices := [], isSlice := false, isMap := false }

def c10RedactPlan : FieldPlan :=
  { index := [0], name := "Email", tagVal := gs "***", isBytes := false,
    ptrIndices := [], isSlice := false, isMap := false }

def c10Proc : Processor :=
  { codec :=
      { contentType := "application/json",
        marshal := fun _ => .ok [], unmarshal := fun _ => .error "unused" },
    encryptors := fun _ => none, hashers := fun _ => none,
    maskers := fun a => if a = gs "ssn" then some c5Masker else none,
    validateCache := none, hashFields := [], decryptFields := [],
    encryptFields := [], maskFields := [c10MaskPlan],
    redactFields := [c10RedactPlan], typeName := "User",
    hashable := none, decryptable := none, encryptable := none,
    maskable := none, redactable := none, cloneFn := fun v => v }

/-! ## Compile-time rejection of invalid capability parameters (C3) -/

/-- A leaf's tags contain some directive with an unrecognised capability
parameter (send.redact excluded: any literal is accepted). -/
def leafTagsInvalid (tags : List (String × GoStr)) : Bool :=
  (match tags.lookup "receive.hash" with
    | some v => !IsValidHashAlgo v
    | none => false) ||
  (match tags.lookup "load.decrypt" with
    | some v => !IsValidEncryptAlgo v
    | none => false) ||
  (match tags.lookup "store.encrypt" with
    | some v => !IsValidEncryptAlgo v
    | none => false) ||
  (match tags.lookup "send.mask" with
    | some v => !IsValidMaskType v
    | none => false)

/-- Some field reachable by the compiler's traversal carries an invalid
directive. -/
def hasInvalidDirective : List FieldMeta → Bool
  | [] => false
  | .leafField _ _ _ tags :: rest =>
      leafTagsInvalid tags || hasInvalidDirective rest
  | .structField _ _ nested :: rest =>
      hasInvalidDirective nested || hasInvalidDirective rest
  | .ptrStructField _ _ nested :: rest =>
      hasInvalidDirective nested || hasInvalidDirective rest
  | .otherField _ _ :: rest => hasInvalidDirective rest

/-- A compile error names a parameter that really is invalid for its
directive kind (together with the offending field, carried in the
constructor). -/
def errNamesInvalid : CompileErr → Bool
  | .invalidHashAlgo p _ => !IsValidHashAlgo p
  | .invalidEncryptAlgo p _ => !IsValidEncryptAlgo p
  | .invalidMaskType p _ => !IsValidMaskType p

/-- All compiled plans carry valid capability parameters. -/
def planTagsValid (plans : TypeFieldPlans) : Bool :=
  plans.hashFields.all (fun pl => IsValidHashAlgo pl.tagVal) &&
  plans.decryptFields.all (fun pl => IsValidEncryptAlgo pl.tagVal) &&
  plans.encryptFields.all (fun pl => IsValidEncryptAlgo pl.tagVal) &&
  plans.maskFields.all (fun pl => IsValidMaskType pl.tagVal)

/-- C3 witness: a type with store.encrypt:"des" (unrecognised) fails
construction with the error naming "des" and the field. -/
def c3Meta : TypeMeta :=
  { typeName := "User",
    fields := [.leafField "Email" [0] .sString [("store.encrypt", gs "des")]] }

/-- Concrete data for the C1 witness: one "aes"-tagged scalar text field,
a reversing encryptor, and a codec that round-trips the encrypted clone. -/
def c1Plan : FieldPlan :=
  { index := [0], name := "Email", tagVal := gs "aes", isBytes := false,
    ptrIndices := [], isSlice := false, isMap := false }

def c1Enc : Encryptor :=
  { encrypt := fun b => .ok b.reverse, decrypt := fun b => .ok b.reverse }

def c1Value : GoValue := .strukt [.leaf (.str (gs "hi"))]

def c1EncW : GoValue :=
  .strukt [.leaf (.str (encodeB64 (List.reverse (gs "hi"))))]

def c1Codec : Codec :=
  { contentType := "application/json",
    marshal := fun w? =>
      match w? with
      | some w => if w = c1EncW then .ok (gs "D") else .error "unsupported"
      | none => .error "nil",
    unmarshal := fun bs => if bs = gs "D" then .ok c1EncW else .error "bad" }

def c1Proc : Processor :=
  { codec := c1Codec,
    encryptors := fun a => if a = gs "aes" then some c1Enc else none,
    hashers := fun _ => none, maskers := fun _ => none,
    validateCache := none, hashFields := [], decryptFields := [c1Plan],
    encryptFields := [c1Plan], maskFields := [], redactFields := [],
    typeName := "User", hashable := none, decryptable := none,
    encryptable := none, maskable := none, redactable := none,
    cloneFn := fun v => v }

theorem unsext_sext : ∀ s, s < 64 → unsext (sext s) = some s := by decide

theorem sext_ne_pad : ∀ s, s < 64 → sext s ≠ padByte := by decide

theorem encodeB64_nonempty (l : GoStr) (h : l ≠ []) : (encodeB64 l).isEmpty = false := by
  match l with
  | [] => exact absurd rfl h
  | [a] => simp [encodeB64]
  | [a, b] => simp [encodeB64]
  | a :: b :: c :: rest => simp [encodeB64]

theorem decodeB64_encodeB64 (l : GoStr) : decodeB64 (encodeB64 l) = some l := by
  induction l using encodeB64.induct with
  | case1 a b c rest ih =>
    by_cases hrest : rest = []
    · subst hrest
      show decodeB64 (_ :: _ :: _ :: _ :: encodeB64 []) = _
      simp only [encodeB64]
      rw [decodeB64]
      simp only [List.isEmpty_nil, if_true]
      rw [decodeQuadLast]
      rw [if_neg (sext_ne_pad _ (by omega))]
      rw [unsext_sext _ (by omega), unsext_sext _ (by omega),
        unsext_sext _ (by omega), unsext_sext _ (by omega)]
      simp only [Option.bind_eq_bind, Option.some_bind, Option.some.injEq]
      refine List.ext_getElem (by simp) ?_
      intro i h1 h2
      match i, h2 with
      | 0, _ =>
        simp only [List.getElem_cons_zero]
        apply Fin.ext
        show (a.val / 4 * 4 + ((a.val % 4) * 16 + b.val / 16) / 16) % 256 = a.val
        have := a.isLt; have := b.isLt
        omega
      | 1, _ =>
        simp only [List.getElem_cons_succ, List.getElem_cons_zero]
        apply Fin.ext
        show ((((a.val % 4) * 16 + b.val / 16) % 16) * 16 +
          ((b.val % 16) * 4 + c.val / 64) / 4) % 256 = b.val
        have := b.isLt; have := c.isLt
        omega
      | 2, _ =>
        simp only [List.getElem_cons_succ, List.getElem_cons_zero]
        apply Fin.ext
        show ((((b.val % 16) * 4 + c.val / 64) % 4) * 64 + c.val % 64) % 256 = c.val
        have := c.isLt
        omega
    · show decodeB64 (_ :: _ :: _ :: _ :: encodeB64 rest) = _
      rw [decodeB64]
      rw [if_neg (by simp [encodeB64_nonempty rest hrest])]
      rw [unsext_sext _ (by omega), unsext_sext _ (by omega),
        unsext_sext _ (by omega), unsext_sext _ (by omega)]
      simp only [Option.bind_eq_bind, Option.some_bind]
      rw [ih]
      simp only [Option.bind_eq_bind, Option.some_bind, Option.some.injEq]
      refine List.ext_getElem (by simp) ?_
      intro i h1 h2
      match i, h2 with
      | 0, _ =>
        simp only [List.getElem_cons_zero]
        apply Fin.ext
        show (a.val / 4 * 4 + ((a.val % 4) * 16 + b.val / 16) / 16) % 256 = a.val
        have := a.isLt; have := b.isLt
        omega
      | 1, _ =>
        simp only [List.getElem_cons_succ, List.getElem_cons_zero]
        apply Fin.ext
        show ((((a.val % 4) * 16 + b.val / 16) % 16) * 16 +
          ((b.val % 16) * 4 + c.val / 64) / 4) % 256 = b.val
        have := b.isLt; have := c.isLt
        omega
      | 2, _ =>
        simp only [List.getElem_cons_succ, List.getElem_cons_zero]
        apply Fin.ext
        show ((((b.val % 16) * 4 + c.val / 64) % 4) * 64 + c.val % 64) % 256 = c.val
        have := c.isLt
        omega
      | (n + 3), _ =>
        simp only [List.getElem_cons_succ]
  | case2 a b =>
    show decodeB64 [_, _, _, _] = _
    rw [decodeB64]
    simp only [List.isEmpty_nil, if_true]
    rw [decodeQuadLast]
    rw [if_pos rfl, if_neg (sext_ne_pad _ (by omega))]
    rw [unsext_sext _ (by omega), unsext_sext _ (by omega), unsext_sext _ (by omega)]
    simp only [Option.bind_eq_bind, Option.some_bind, Option.some.injEq]
    refine List.ext_getElem (by simp) ?_
    intro i h1 h2
    match i, h2 with
    | 0, _ =>
      simp only [List.getElem_cons_zero]
      apply Fin.ext
      show (a.val / 4 * 4 + ((a.val % 4) * 16 + b.val / 16) / 16) % 256 = a.val
      have := a.isLt; have := b.isLt
      omega
    | 1, _ =>
      simp only [List.getElem_cons_succ, List.getElem_cons_zero]
      apply Fin.ext
      show ((((a.val % 4) * 16 + b.val / 16) % 16) * 16 + ((b.val % 16) * 4) / 4) % 256
        = b.val
      have := b.isLt
      omega
  | case3 a =>
    show decodeB64 [_, _, _, _] = _
    rw [decodeB64]
    simp only [List.isEmpty_nil, if_true]
    rw [decodeQuadLast]
    rw [if_pos rfl, if_pos rfl]
    rw [unsext_sext _ (by omega), unsext_sext _ (by omega)]
    simp only [Option.bind_eq_bind, Option.some_bind, Option.some.injEq]
    refine List.ext_getElem (by simp) ?_
    intro i h1 h2
    match i, h2 with
    | 0, _ =>
      simp only [List.getElem_cons_zero]
      apply Fin.ext
      show (a.val / 4 * 4 + ((a.val % 4) * 16) / 16) % 256 = a.val
      have := a.isLt
      omega
  | case4 => rfl

theorem stepsDiverge_symm {p q : List Step} (h : stepsDiverge p q = true) :
    stepsDiverge q p = true := by
  induction p generalizing q with
  | nil => simp [stepsDiverge] at h
  | cons s ps ih =>
    match q with
    | [] => simp [stepsDiverge] at h
    | t :: qs =>
      obtain ⟨i, d⟩ := s
      obtain ⟨j, e⟩ := t
      rw [stepsDiverge] at h ⊢
      by_cases hij : i = j
      · subst hij
        simp only [if_pos rfl] at h ⊢
        by_cases hde : d = e
        · subst hde
          simp only [if_pos rfl] at h ⊢
          exact ih h
        · simp [hde] at h
      · simp [hij, Ne.symm hij]

theorem list_set_of_getElem? {α : Type} {l : List α} {i : Nat} {a : α}
    (h : l[i]? = some a) : l.set i a = l := by
  apply List.ext_getElem?
  intro j
  by_cases hij : i = j
  · subst hij
    rw [List.getElem?_set_self', h]
    rfl
  · rw [List.getElem?_set_ne hij]

theorem getLeaf_iff {v : GoValue} {p : List Step} {y : FieldValue} :
    getLeaf v p = some y ↔ getNode v p = some (.leaf y) := by
  unfold getLeaf
  cases h : getNode v p with
  | none => simp
  | some w => cases w <;> simp

/-- Writing back the value a path currently holds changes nothing. -/
theorem setLeaf_getLeaf {p : List Step} {v : GoValue} {y : FieldValue}
    (h : getNode v p = some (.leaf y)) : setLeaf v p y = v := by
  induction p generalizing v with
  | nil =>
    simp only [getNode, Option.some.injEq] at h
    subst h
    rfl
  | cons s ps ih =>
    obtain ⟨i, d⟩ := s
    match v with
    | .leaf _ => simp [getNode] at h
    | .ptr _ => simp [getNode] at h
    | .strukt fields =>
      simp only [getNode] at h
      cases hf : fields[i]? with
      | none => rw [hf] at h; simp at h
      | some f =>
        rw [hf] at h
        simp only [setLeaf, hf]
        cases d with
        | false =>
          simp only [Bool.false_eq_true, if_false] at h ⊢
          rw [ih h, list_set_of_getElem? hf]
        | true =>
          simp only [if_true] at h ⊢
          match f with
          | .leaf _ => simp at h
          | .strukt _ => simp at h
          | .ptr none => simp at h
          | .ptr (some inner) =>
            simp only at h
            show GoValue.strukt
              (fields.set i (GoValue.ptr (some (setLeaf inner ps y)))) = _
            rw [ih h, list_set_of_getElem? hf]

/-- Reading a path just written returns the written value. -/
theorem getNode_setLeaf_self {p : List Step} {v : GoValue} {y x : FieldValue}
    (h : getNode v p = some (.leaf y)) :
    getNode (setLeaf v p x) p = some (.leaf x) := by
  induction p generalizing v with
  | nil =>
    simp only [getNode, Option.some.injEq] at h
    subst h
    rfl
  | cons s ps ih =>
    obtain ⟨i, d⟩ := s
    match v with
    | .leaf _ => simp [getNode] at h
    | .ptr _ => simp [getNode] at h
    | .strukt fields =>
      simp only [getNode] at h
      cases hf : fields[i]? with
      | none => rw [hf] at h; simp at h
      | some f =>
        rw [hf] at h
        have hlen : i < fields.length := (List.getElem?_eq_some_iff.mp hf).1
        simp only [setLeaf, hf]
        cases d with
        | false =>
          simp only [Bool.false_eq_true, if_false] at h ⊢
          simp only [getNode, List.getElem?_set_self hlen]
          exact ih h
        | true =>
          simp only [if_true] at h ⊢
          match f with
          | .leaf _ => simp at h
          | .strukt _ => simp at h
          | .ptr none => simp at h
          | .ptr (some inner) =>
            simp only at h
            simp only [getNode, List.getElem?_set_self hlen]
            exact ih h

/-- Writing twice to the same path keeps only the second write. -/
theorem setLeaf_setLeaf {p : List Step} {v : GoValue} {x z : FieldValue} :
    setLeaf (setLeaf v p x) p z = setLeaf v p z := by
  induction p generalizing v with
  | nil =>
    match v with
    | .leaf _ => rfl
    | .strukt _ => rfl
    | .ptr _ => rfl
  | cons s ps ih =>
    obtain ⟨i, d⟩ := s
    match v with
    | .leaf _ => rfl
    | .ptr _ => rfl
    | .strukt fields =>
      cases hf : fields[i]? with
      | none => simp only [setLeaf, hf]
      | some f =>
        have hlen : i < fields.length := (List.getElem?_eq_some_iff.mp hf).1
        simp only [setLeaf, hf, List.getElem?_set_self hlen, List.set_set]
        cases d with
        | false =>
          simp only [Bool.false_eq_true, if_false, ih]
        | true =>
          simp only [if_true]
          match f with
          | .leaf _ => rfl
          | .strukt _ => rfl
          | .ptr none => rfl
          | .ptr (some inner) => simp only [ih]

/-- Frame rule: a write on one path does not change reads on a divergent
path. -/
theorem getNode_setLeaf_diverge {p q : List Step} {v : GoValue} {x : FieldValue}
    (h : stepsDiverge p q = true) :
    getNode (setLeaf v p x) q = getNode v q := by
  induction p generalizing v q with
  | nil => simp [stepsDiverge] at h
  | cons s ps ih =>
    obtain ⟨i, d⟩ := s
    match q with
    | [] => simp [stepsDiverge] at h
    | (j, e) :: qs =>
      match v with
      | .leaf _ => rfl
      | .ptr _ => rfl
      | .strukt fields =>
        cases hf : fields[i]? with
        | none => simp only [setLeaf, hf]
        | some f =>
          have hlen : i < fields.length := (List.getElem?_eq_some_iff.mp hf).1
          rw [stepsDiverge] at h
          by_cases hij : i = j
          · subst hij
            simp only [if_pos rfl] at h
            by_cases hde : d = e
            · subst hde
              simp only [if_pos rfl] at h
              simp only [setLeaf, hf, getNode, List.getElem?_set_self hlen, hf]
              cases d with
              | false =>
                simp only [Bool.false_eq_true, if_false]
                exact ih h
              | true =>
                simp only [if_true]
                match f with
                | .leaf _ => rfl
                | .strukt _ => rfl
                | .ptr none => rfl
                | .ptr (some inner) => exact ih h
            · simp [hde] at h
          · simp only [setLeaf, hf, getNode, List.getElem?_set_ne hij]

/-- Structure preservation: a write never turns an unreadable path into a
readable one (nil pointers stay nil, shapes are unchanged). -/
theorem getLeaf_none_setLeaf {q : List Step} {v : GoValue} {p : List Step}
    {x : FieldValue} (h : getLeaf v q = none) :
    getLeaf (setLeaf v p x) q = none := by
  induction q generalizing v p with
  | nil =>
    match v, p with
    | .leaf fv, [] => simp [getLeaf, getNode] at h
    | .strukt fields, [] => exact h
    | .ptr w, [] => exact h
    | .leaf fv, _ :: _ => simp [getLeaf, getNode] at h
    | .strukt fields, (i, d) :: ps =>
      cases hf : fields[i]? with
      | none => simpa only [setLeaf, hf] using h
      | some f => simp only [setLeaf, hf]; exact h
    | .ptr w, _ :: _ => exact h
  | cons s qs ih =>
    obtain ⟨j, e⟩ := s
    match v, p with
    | .leaf fv, [] => rfl
    | .ptr w, [] => exact h
    | .strukt fields, [] => exact h
    | .leaf fv, _ :: _ => exact h
    | .ptr w, _ :: _ => exact h
    | .strukt fields, (i, d) :: ps =>
      cases hf : fields[i]? with
      | none => simpa only [setLeaf, hf] using h
      | some f =>
        have hlen : i < fields.length := (List.getElem?_eq_some_iff.mp hf).1
        simp only [setLeaf, hf]
        by_cases hij : i = j
        · subst hij
          simp only [getLeaf, getNode, hf] at h
          simp only [getLeaf, getNode, List.getElem?_set_self hlen]
          cases e with
          | false =>
            simp only [Bool.false_eq_true, if_false] at h ⊢
            cases d with
            | false =>
              simp only [Bool.false_eq_true, if_false]
              exact @ih _ ps h
            | true =>
              simp only [if_true]
              match f with
              | .leaf _ => exact h
              | .strukt _ => exact h
              | .ptr none => exact h
              | .ptr (some inner) =>
                match qs with
                | [] => simp [getNode]
                | _ :: _ => simp [getNode]
          | true =>
            simp only [if_true] at h ⊢
            cases d with
            | false =>
              simp only [Bool.false_eq_true, if_false]
              match f with
              | .leaf fv' =>
                match ps with
                | [] => exact h
                | _ :: _ => exact h
              | .strukt fs =>
                match ps with
                | [] => exact h
                | (i', d') :: ps' =>
                  simp only [setLeaf]
                  cases hf' : fs[i']? with
                  | none => exact h
                  | some _ => exact h
              | .ptr w =>
                match ps with
                | [] => exact h
                | _ :: _ => exact h
            | true =>
              simp only [if_true]
              match f with
              | .leaf _ => exact h
              | .strukt _ => exact h
              | .ptr none => exact h
              | .ptr (some inner) => exact @ih _ ps h
        · simp only [getLeaf, getNode, hf] at h
          simp only [getLeaf, getNode, List.getElem?_set_ne hij]
          exact h

/-- Writes on divergent paths commute. -/
theorem setLeaf_comm {p q : List Step} {v : GoValue} {x y : FieldValue}
    (h : stepsDiverge p q = true) :
    setLeaf (setLeaf v p x) q y = setLeaf (setLeaf v q y) p x := by
  induction p generalizing v q with
  | nil => simp [stepsDiverge] at h
  | cons s ps ih =>
    obtain ⟨i, d⟩ := s
    match q with
    | [] => simp [stepsDiverge] at h
    | (j, e) :: qs =>
      match v with
      | .leaf _ => rfl
      | .ptr _ => rfl
      | .strukt fields =>
        rw [stepsDiverge] at h
        by_cases hij : i = j
        · subst hij
          simp only [if_pos rfl] at h
          by_cases hde : d = e
          · subst hde
            simp only [if_pos rfl] at h
            cases hf : fields[i]? with
            | none => simp only [setLeaf, hf]
            | some f =>
              have hlen : i < fields.length := (List.getElem?_eq_some_iff.mp hf).1
              simp only [setLeaf, hf, List.getElem?_set_self hlen, List.set_set]
              cases d with
              | false =>
                simp only [Bool.false_eq_true, if_false, ih h]
              | true =>
                simp only [if_true]
                match f with
                | .leaf _ => rfl
                | .strukt _ => rfl
                | .ptr none => rfl
                | .ptr (some inner) => simp only [ih h]
          · simp [hde] at h
        · cases hf : fields[i]? with
          | none =>
            cases hg : fields[j]? with
            | none => simp only [setLeaf, hf, hg]
            | some g =>
              simp only [setLeaf, hf, hg, List.getElem?_set_ne (Ne.symm hij), hf]
          | some f =>
            cases hg : fields[j]? with
            | none =>
              simp only [setLeaf, hf, hg, List.getElem?_set_ne hij, hg]
            | some g =>
              simp only [setLeaf, hf, hg, List.getElem?_set_ne hij,
                List.getElem?_set_ne (Ne.symm hij), hf, hg]
              rw [List.set_comm _ _ _ hij]

/-! ## Generic traversal lemmas

All four fallible apply functions have the same structure: fold a
per-field transform over the plan list via `transformStep`.  `applyFV`
abstracts that structure; equivalence lemmas connect it to each apply
function, and the traversal lemmas are proved once against it. -/

theorem exbind_ok {e a b : Type} (x : a) (f : a → Except e b) :
    (Except.ok x >>= f) = f x := rfl

theorem exbind_err {e a b : Type} (er : e) (f : a → Except e b) :
    ((Except.error er : Except e a) >>= f) = Except.error er := rfl

theorem applyHash_eq_applyFV (hs : GoStr → Option Hasher)
    (plans : List FieldPlan) (v : GoValue) :
    applyHash hs plans v = applyFV (fun plan => hashFV (hs plan.tagVal) plan) plans v := by
  induction plans generalizing v with
  | nil => rfl
  | cons plan rest ih =>
    simp only [applyHash, applyFV]
    cases hst : transformStep (hashFV (hs plan.tagVal) plan) plan.steps v with
    | error e => rfl
    | ok v' => exact ih v'

theorem applyDecrypt_eq_applyFV (encs : GoStr → Option Encryptor)
    (plans : List FieldPlan) (v : GoValue) :
    applyDecrypt encs plans v
      = applyFV (fun plan => decryptFV (encs plan.tagVal) plan) plans v := by
  induction plans generalizing v with
  | nil => rfl
  | cons plan rest ih =>
    simp only [applyDecrypt, applyFV]
    cases hst : transformStep (decryptFV (encs plan.tagVal) plan) plan.steps v with
    | error e => rfl
    | ok v' => exact ih v'

theorem applyEncrypt_eq_applyFV (encs : GoStr → Option Encryptor)
    (plans : List FieldPlan) (v : GoValue) :
    applyEncrypt encs plans v
      = applyFV (fun plan => encryptFV (encs plan.tagVal) plan) plans v := by
  induction plans generalizing v with
  | nil => rfl
  | cons plan rest ih =>
    simp only [applyEncrypt, applyFV]
    cases hst : transformStep (encryptFV (encs plan.tagVal) plan) plan.steps v with
    | error e => rfl
    | ok v' => exact ih v'

theorem applyMask_eq_applyFV (ms : GoStr → Option Masker)
    (plans : List FieldPlan) (v : GoValue) :
    applyMask ms plans v
      = applyFV (fun plan => maskFV (ms plan.tagVal) plan) plans v := by
  induction plans generalizing v with
  | nil => rfl
  | cons plan rest ih =>
    simp only [applyMask, applyFV]
    cases hst : transformStep (maskFV (ms plan.tagVal) plan) plan.steps v with
    | error e => rfl
    | ok v' => exact ih v'

theorem applyRedact_eq_applyFV (plans : List FieldPlan) (v : GoValue) :
    applyFV (fun plan fv => .ok (redactFV plan fv)) plans v
      = .ok (applyRedact plans v) := by
  induction plans generalizing v with
  | nil => rfl
  | cons plan rest ih =>
    simp only [applyFV, applyRedact, transformStep]
    cases getLeaf v plan.steps with
    | none => exact ih v
    | some fv => exact ih _

theorem applyFV_append (F : FieldPlan → FieldValue → Except ProcErr FieldValue)
    (l1 l2 : List FieldPlan) (v : GoValue) :
    applyFV F (l1 ++ l2) v = (applyFV F l1 v).bind (applyFV F l2) := by
  induction l1 generalizing v with
  | nil => rfl
  | cons plan rest ih =>
    simp only [List.cons_append, applyFV]
    cases hst : transformStep (F plan) plan.steps v with
    | error e => rfl
    | ok v' => exact ih v'

/-- A single step only rewrites a leaf: unreadable paths stay unreadable. -/
theorem transformStep_none_preserved {F : FieldValue → Except ProcErr FieldValue}
    {steps : List Step} {v v' : GoValue}
    (h : transformStep F steps v = .ok v') {q : List Step}
    (hq : getLeaf v q = none) : getLeaf v' q = none := by
  cases hl : getLeaf v steps with
  | none =>
    simp only [transformStep, hl] at h
    cases h
    exact hq
  | some fv =>
    simp only [transformStep, hl] at h
    cases hf : F fv with
    | error e =>
      simp only [hf, exbind_err] at h
      simp at h
    | ok fv' =>
      simp only [hf, exbind_ok] at h
      cases h
      exact getLeaf_none_setLeaf hq

/-- The traversal only rewrites leaves: unreadable paths stay unreadable. -/
theorem applyFV_none_preserved {F : FieldPlan → FieldValue → Except ProcErr FieldValue}
    {plans : List FieldPlan} {v w : GoValue}
    (h : applyFV F plans v = .ok w) {q : List Step}
    (hq : getLeaf v q = none) : getLeaf w q = none := by
  induction plans generalizing v with
  | nil => cases h; exact hq
  | cons plan rest ih =>
    simp only [applyFV] at h
    cases hst : transformStep (F plan) plan.steps v with
    | error e =>
      simp only [hst, exbind_err] at h
      simp at h
    | ok v' =>
      simp only [hst, exbind_ok] at h
      exact ih h (transformStep_none_preserved hst hq)

/-- A step whose target field is unreachable is the identity. -/
theorem transformStep_skip {F : FieldValue → Except ProcErr FieldValue}
    {steps : List Step} {v : GoValue} (h : getLeaf v steps = none) :
    transformStep F steps v = .ok v := by
  unfold transformStep
  rw [h]

/-- A step whose target field reads `fv` binds the transform of `fv`. -/
theorem transformStep_some {F : FieldValue → Except ProcErr FieldValue}
    {steps : List Step} {v : GoValue} {fv : FieldValue}
    (h : getLeaf v steps = some fv) :
    transformStep F steps v = F fv >>= (fun fv' => .ok (setLeaf v steps fv')) := by
  unfold transformStep
  rw [h]

/-- Frame: steps on paths divergent from `q` do not change the field at
`q`. -/
theorem applyFV_getLeaf_diverge
    {F : FieldPlan → FieldValue → Except ProcErr FieldValue}
    {plans : List FieldPlan} {v w : GoValue} {q : List Step}
    (hdivq : ∀ r ∈ plans, stepsDiverge r.steps q = true)
    (h : applyFV F plans v = .ok w) : getLeaf w q = getLeaf v q := by
  induction plans generalizing v with
  | nil => cases h; rfl
  | cons plan rest ih =>
    simp only [applyFV] at h
    cases hst : transformStep (F plan) plan.steps v with
    | error e =>
      simp only [hst, exbind_err] at h
      simp at h
    | ok v' =>
      simp only [hst, exbind_ok] at h
      have hstep : getLeaf v' q = getLeaf v q := by
        cases hl : getLeaf v plan.steps with
        | none =>
          simp only [transformStep, hl] at hst
          cases hst
          rfl
        | some fv =>
          simp only [transformStep, hl] at hst
          cases hf : F plan fv with
          | error e =>
            simp only [hf, exbind_err] at hst
            simp at hst
          | ok fv' =>
            simp only [hf, exbind_ok] at hst
            cases hst
            unfold getLeaf
            rw [getNode_setLeaf_diverge (hdivq plan (List.mem_cons_self _ _))]
      rw [← hstep]
      exact ih (fun r hr => hdivq r (List.mem_cons_of_mem _ hr)) h

/-- Steps on paths divergent from `q` commute with a write at `q`. -/
theorem applyFV_setLeaf_comm
    {F : FieldPlan → FieldValue → Except ProcErr FieldValue}
    {plans : List FieldPlan} {w : GoValue} {q : List Step} {x : FieldValue}
    (hdivq : ∀ r ∈ plans, stepsDiverge r.steps q = true) :
    applyFV F plans (setLeaf w q x)
      = (applyFV F plans w).map (fun u => setLeaf u q x) := by
  induction plans generalizing w with
  | nil => rfl
  | cons plan rest ih =>
    have hdplan : stepsDiverge plan.steps q = true := hdivq plan (List.mem_cons_self _ _)
    simp only [applyFV]
    have hget : getLeaf (setLeaf w q x) plan.steps = getLeaf w plan.steps := by
      unfold getLeaf
      rw [getNode_setLeaf_diverge (stepsDiverge_symm hdplan)]
    cases hl : getLeaf w plan.steps with
    | none =>
      have h1 : transformStep (F plan) plan.steps (setLeaf w q x)
          = .ok (setLeaf w q x) := by
        simp only [transformStep, hget, hl]
      have h2 : transformStep (F plan) plan.steps w = .ok w := by
        simp only [transformStep, hl]
      rw [h1, h2, exbind_ok, exbind_ok]
      exact ih (fun r hr => hdivq r (List.mem_cons_of_mem _ hr))
    | some fv =>
      cases hf : F plan fv with
      | error e =>
        have h1 : transformStep (F plan) plan.steps (setLeaf w q x)
            = .error e := by
          simp only [transformStep, hget, hl, hf, exbind_err]
        have h2 : transformStep (F plan) plan.steps w = .error e := by
          simp only [transformStep, hl, hf, exbind_err]
        rw [h1, h2]
        simp only [exbind_err]
        rfl
      | ok fv' =>
        have h1 : transformStep (F plan) plan.steps (setLeaf w q x)
            = .ok (setLeaf (setLeaf w plan.steps fv') q x) := by
          simp only [transformStep, hget, hl, hf, exbind_ok]
          rw [setLeaf_comm (stepsDiverge_symm hdplan)]
        have h2 : transformStep (F plan) plan.steps w
            = .ok (setLeaf w plan.steps fv') := by
          simp only [transformStep, hl, hf, exbind_ok]
        rw [h1, h2, exbind_ok, exbind_ok]
        exact ih (fun r hr => hdivq r (List.mem_cons_of_mem _ hr))

theorem callEncrypt_ok_inv {enc? : Option Encryptor} {n : String} {pt ct : GoStr}
    (h : callEncrypt enc? n pt = .ok ct) :
    ∃ enc, enc? = some enc ∧ enc.encrypt pt = .ok ct := by
  cases enc? with
  | none => simp [callEncrypt] at h
  | some enc =>
    refine ⟨enc, rfl, ?_⟩
    simp only [callEncrypt] at h
    cases he : enc.encrypt pt with
    | error e => rw [he] at h; simp at h
    | ok ct' => rw [he] at h; simp only [Except.ok.injEq] at h; rw [h]

theorem callDecrypt_of_inverts {enc? : Option Encryptor} {enc : Encryptor}
    (hs : enc? = some enc) (hinv : EncInverts enc?) {n : String} {pt ct : GoStr}
    (he : enc.encrypt pt = .ok ct) : callDecrypt enc? n ct = .ok pt := by
  subst hs
  simp only [callDecrypt]
  rw [hinv enc rfl pt ct he]

theorem decList_encList {enc? : Option Encryptor} (hinv : EncInverts enc?)
    (name : String) :
    ∀ (i : Nat) (l l' : List GoStr), encList enc? name i l = .ok l' →
      decList enc? name i l' = .ok l := by
  intro i l
  induction l generalizing i with
  | nil =>
    intro l' h
    simp only [encList, Except.ok.injEq] at h
    subst h
    rfl
  | cons s rest ih =>
    intro l' h
    simp only [encList] at h
    cases hce : callEncrypt enc? (elemName name i) s with
    | error e => rw [hce] at h; simp [exbind_err] at h
    | ok ct =>
      rw [hce] at h
      rw [exbind_ok] at h
      cases hel : encList enc? name (i + 1) rest with
      | error e => rw [hel] at h; simp [exbind_err] at h
      | ok tail =>
        rw [hel] at h
        rw [exbind_ok] at h
        simp only [Except.ok.injEq] at h
        subst h
        obtain ⟨enc, hsome, he⟩ := callEncrypt_ok_inv hce
        simp only [decList, decodeB64_encodeB64]
        rw [callDecrypt_of_inverts hsome hinv he, exbind_ok, ih (i + 1) tail hel,
          exbind_ok]

theorem decMap_encMap {enc? : Option Encryptor} (hinv : EncInverts enc?)
    (name : String) :
    ∀ (m m' : List (GoStr × GoStr)), encMap enc? name m = .ok m' →
      decMap enc? name m' = .ok m := by
  intro m
  induction m with
  | nil =>
    intro m' h
    simp only [encMap, Except.ok.injEq] at h
    subst h
    rfl
  | cons kv rest ih =>
    intro m' h
    obtain ⟨k, s⟩ := kv
    simp only [encMap] at h
    cases hce : callEncrypt enc? (keyElemName name k) s with
    | error e => rw [hce] at h; simp [exbind_err] at h
    | ok ct =>
      rw [hce] at h
      rw [exbind_ok] at h
      cases hem : encMap enc? name rest with
      | error e => rw [hem] at h; simp [exbind_err] at h
      | ok tail =>
        rw [hem] at h
        rw [exbind_ok] at h
        simp only [Except.ok.injEq] at h
        subst h
        obtain ⟨enc, hsome, he⟩ := callEncrypt_ok_inv hce
        simp only [decMap, decodeB64_encodeB64]
        rw [callDecrypt_of_inverts hsome hinv he, exbind_ok, ih tail hem, exbind_ok]

/-- Per-field round-trip: a decrypt plan with the same shape flags and
capability undoes the corresponding encrypt plan. -/
theorem decryptFV_encryptFV {enc? : Option Encryptor} (hinv : EncInverts enc?)
    (plan : FieldPlan) {fv fv' : FieldValue}
    (h : encryptFV enc? plan fv = .ok fv') :
    decryptFV enc? plan fv' = .ok fv := by
  unfold encryptFV at h
  unfold decryptFV
  cases hsl : plan.isSlice with
  | true =>
    simp only [hsl, if_true] at h ⊢
    cases fv with
    | strList l =>
      simp only at h
      cases hel : encList enc? plan.name 0 l with
      | error e => rw [hel] at h; simp [exbind_err] at h
      | ok l' =>
        rw [hel] at h
        rw [exbind_ok] at h
        simp only [Except.ok.injEq] at h
        subst h
        simp only
        rw [decList_encList hinv plan.name 0 l l' hel, exbind_ok]
    | str s => simp only [Except.ok.injEq] at h; subst h; rfl
    | bytes b => simp only [Except.ok.injEq] at h; subst h; rfl
    | strMap m => simp only [Except.ok.injEq] at h; subst h; rfl
  | false =>
    simp only [hsl, Bool.false_eq_true, if_false] at h ⊢
    cases hm : plan.isMap with
    | true =>
      simp only [hm, if_true] at h ⊢
      cases fv with
      | strMap m =>
        simp only at h
        cases hem : encMap enc? plan.name m with
        | error e => rw [hem] at h; simp [exbind_err] at h
        | ok m' =>
          rw [hem] at h
          rw [exbind_ok] at h
          simp only [Except.ok.injEq] at h
          subst h
          simp only
          rw [decMap_encMap hinv plan.name m m' hem, exbind_ok]
      | str s => simp only [Except.ok.injEq] at h; subst h; rfl
      | bytes b => simp only [Except.ok.injEq] at h; subst h; rfl
      | strList l => simp only [Except.ok.injEq] at h; subst h; rfl
    | false =>
      simp only [hm, Bool.false_eq_true, if_false] at h ⊢
      cases hb : plan.isBytes with
      | true =>
        simp only [hb, if_true] at h ⊢
        cases fv with
        | bytes b =>
          simp only at h
          cases hce : callEncrypt enc? plan.name b with
          | error e => rw [hce] at h; simp [exbind_err] at h
          | ok ct =>
            rw [hce] at h
            rw [exbind_ok] at h
            simp only [Except.ok.injEq] at h
            subst h
            obtain ⟨enc, hsome, he⟩ := callEncrypt_ok_inv hce
            simp only
            rw [callDecrypt_of_inverts hsome hinv he, exbind_ok]
        | str s => simp only [Except.ok.injEq] at h; subst h; rfl
        | strList l => simp only [Except.ok.injEq] at h; subst h; rfl
        | strMap m => simp only [Except.ok.injEq] at h; subst h; rfl
      | false =>
        simp only [hb, Bool.false_eq_true, if_false] at h ⊢
        cases fv with
        | str s =>
          simp only at h
          cases hce : callEncrypt enc? plan.name s with
          | error e => rw [hce] at h; simp [exbind_err] at h
          | ok ct =>
            rw [hce] at h
            rw [exbind_ok] at h
            simp only [Except.ok.injEq] at h
            subst h
            obtain ⟨enc, hsome, he⟩ := callEncrypt_ok_inv hce
            simp only [decodeB64_encodeB64]
            rw [callDecrypt_of_inverts hsome hinv he, exbind_ok]
        | bytes b => simp only [Except.ok.injEq] at h; subst h; rfl
        | strList l => simp only [Except.ok.injEq] at h; subst h; rfl
        | strMap m => simp only [Except.ok.injEq] at h; subst h; rfl

/-- Traversal-level round-trip: applying inverse per-field transforms over
the same plan list (with pairwise independent field paths) restores the
input. -/
theorem applyFV_roundtrip
    {F G : FieldPlan → FieldValue → Except ProcErr FieldValue}
    {plans : List FieldPlan}
    (hFG : ∀ plan ∈ plans, ∀ fv fv', F plan fv = .ok fv' → G plan fv' = .ok fv)
    (hdiv : plans.Pairwise (fun a b => stepsDiverge a.steps b.steps = true))
    {v w : GoValue} (h : applyFV F plans v = .ok w) :
    applyFV G plans w = .ok v := by
  induction plans generalizing v with
  | nil =>
    cases h
    rfl
  | cons plan rest ih =>
    obtain ⟨hd, hdr⟩ := List.pairwise_cons.mp hdiv
    have hdivq : ∀ r ∈ rest, stepsDiverge r.steps plan.steps = true :=
      fun r hr => stepsDiverge_symm (hd r hr)
    simp only [applyFV] at h ⊢
    cases hst : transformStep (F plan) plan.steps v with
    | error e =>
      simp only [hst, exbind_err] at h
      simp at h
    | ok v1 =>
      rw [hst] at h
      rw [exbind_ok] at h
      have hw : getLeaf w plan.steps = getLeaf v1 plan.steps :=
        applyFV_getLeaf_diverge hdivq h
      cases hl : getLeaf v plan.steps with
      | none =>
        simp only [transformStep, hl] at hst
        cases hst
        rw [transformStep_skip (hw.trans hl), exbind_ok]
        exact ih (fun r hr => hFG r (List.mem_cons_of_mem _ hr)) hdr h
      | some fv =>
        simp only [transformStep, hl] at hst
        cases hf : F plan fv with
        | error e =>
          rw [hf] at hst
          simp [exbind_err] at hst
        | ok fv' =>
          rw [hf] at hst
          rw [exbind_ok] at hst
          simp only [Except.ok.injEq] at hst
          have hnode : getNode v plan.steps = some (.leaf fv) := getLeaf_iff.mp hl
          have hv1 : getLeaf v1 plan.steps = some fv' := by
            rw [← hst]
            exact getLeaf_iff.mpr (getNode_setLeaf_self hnode)
          have hstepG : transformStep (G plan) plan.steps w
              = .ok (setLeaf w plan.steps fv) := by
            rw [transformStep_some (hw.trans hv1),
              hFG plan (List.mem_cons_self _ _) fv fv' hf, exbind_ok]
          rw [hstepG, exbind_ok]
          rw [applyFV_setLeaf_comm hdivq]
          rw [ih (fun r hr => hFG r (List.mem_cons_of_mem _ hr)) hdr h]
          show Except.ok (setLeaf v1 plan.steps fv) = Except.ok v
          rw [← hst, setLeaf_setLeaf, setLeaf_getLeaf hnode]

/-! ## Further traversal lemmas used by individual claims -/

/-- Frame for one step. -/
theorem transformStep_getLeaf_diverge {F : FieldValue → Except ProcErr FieldValue}
    {steps : List Step} {v v' : GoValue} {q : List Step}
    (hd : stepsDiverge steps q = true)
    (h : transformStep F steps v = .ok v') : getLeaf v' q = getLeaf v q := by
  cases hl : getLeaf v steps with
  | none =>
    simp only [transformStep, hl] at h
    cases h
    rfl
  | some fv =>
    simp only [transformStep, hl] at h
    cases hf : F fv with
    | error e =>
      rw [hf] at h
      simp [exbind_err] at h
    | ok fv' =>
      rw [hf] at h
      rw [exbind_ok] at h
      cases h
      unfold getLeaf
      rw [getNode_setLeaf_diverge hd]

/-- A plan list with pairwise independent paths leaves the transformed
value of one plan's field exactly as that plan's transform produced it. -/
theorem applyFV_field_result
    {F : FieldPlan → FieldValue → Except ProcErr FieldValue}
    {plans : List FieldPlan}
    (hdiv : plans.Pairwise (fun a b => stepsDiverge a.steps b.steps = true))
    {plan : FieldPlan} (hmem : plan ∈ plans)
    {v w : GoValue} {fv fv' : FieldValue}
    (hfv : getLeaf v plan.steps = some fv) (hF : F plan fv = .ok fv')
    (h : applyFV F plans v = .ok w) : getLeaf w plan.steps = some fv' := by
  induction plans generalizing v with
  | nil => cases hmem
  | cons r rest ih =>
    obtain ⟨hd, hdr⟩ := List.pairwise_cons.mp hdiv
    simp only [applyFV] at h
    rcases List.mem_cons.mp hmem with hpr | hmem'
    · subst hpr
      rw [transformStep_some hfv, hF, exbind_ok, exbind_ok] at h
      have hv1 : getLeaf (setLeaf v plan.steps fv') plan.steps = some fv' :=
        getLeaf_iff.mpr (getNode_setLeaf_self (getLeaf_iff.mp hfv))
      have hdivq : ∀ s ∈ rest, stepsDiverge s.steps plan.steps = true :=
        fun s hsr => stepsDiverge_symm (hd s hsr)
      rw [applyFV_getLeaf_diverge hdivq h]
      exact hv1
    · cases hst : transformStep (F r) r.steps v with
      | error e =>
        rw [hst] at h
        simp [exbind_err] at h
      | ok v1 =>
        rw [hst] at h
        rw [exbind_ok] at h
        have hfr : getLeaf v1 plan.steps = some fv := by
          rw [transformStep_getLeaf_diverge (hd plan hmem') hst]
          exact hfv
        exact ih hdr hmem' hfr h

/-- Skipping lemma: a plan whose field is unreachable contributes nothing
to the traversal. -/
theorem applyFV_skip {F : FieldPlan → FieldValue → Except ProcErr FieldValue}
    {pre post : List FieldPlan} {q : FieldPlan} {v : GoValue}
    (hnil : getLeaf v q.steps = none) :
    applyFV F (pre ++ q :: post) v = applyFV F (pre ++ post) v := by
  rw [applyFV_append, applyFV_append]
  cases hpre : applyFV F pre v with
  | error e => rfl
  | ok v' =>
    simp only [Except.bind]
    have hnil' : getLeaf v' q.steps = none := applyFV_none_preserved hpre hnil
    show applyFV F (q :: post) v' = applyFV F post v'
    simp only [applyFV]
    rw [transformStep_skip hnil', exbind_ok]

/-- C8: for every field plan whose access path crosses a nil optional
reference in the live value, each boundary action's traversal skips that
plan entirely — no error is produced for it, and the remaining plans are
applied exactly as if the skipped plan were absent. -/
theorem C8_nil_reference_skipped (hs : GoStr → Option Hasher)
    (encs : GoStr → Option Encryptor) (ms : GoStr → Option Masker)
    (pre post : List FieldPlan) (q : FieldPlan) (v : GoValue)
    (hnil : getLeaf v q.steps = none) :
    applyHash hs (pre ++ q :: post) v = applyHash hs (pre ++ post) v ∧
    applyDecrypt encs (pre ++ q :: post) v = applyDecrypt encs (pre ++ post) v ∧
    applyEncrypt encs (pre ++ q :: post) v = applyEncrypt encs (pre ++ post) v ∧
    applyMask ms (pre ++ q :: post) v = applyMask ms (pre ++ post) v ∧
    applyRedact (pre ++ q :: post) v = applyRedact (pre ++ post) v := by
  refine ⟨?_, ?_, ?_, ?_, ?_⟩
  · rw [applyHash_eq_applyFV, applyHash_eq_applyFV, applyFV_skip hnil]
  · rw [applyDecrypt_eq_applyFV, applyDecrypt_eq_applyFV, applyFV_skip hnil]
  · rw [applyEncrypt_eq_applyFV, applyEncrypt_eq_applyFV, applyFV_skip hnil]
  · rw [applyMask_eq_applyFV, applyMask_eq_applyFV, applyFV_skip hnil]
  · have h1 := applyRedact_eq_applyFV (pre ++ q :: post) v
    have h2 := applyRedact_eq_applyFV (pre ++ post) v
    rw [applyFV_skip hnil, h2] at h1
    exact (Except.ok.injEq _ _).mp h1.symm

/-- C8 witness: a two-field struct whose second field sits behind a nil
pointer; the nil-guarded plan is skipped while the other plan still
applies. -/
theorem C8_nil_reference_skipped_witness :
    getLeaf c8Value c8PlanInner.steps = none ∧
    applyRedact [c8PlanInner, c8PlanOuter] c8Value
      = applyRedact [c8PlanOuter] c8Value := by
  constructor
  · rfl
  · exact (C8_nil_reference_skipped (fun _ => none) (fun _ => none) (fun _ => none)
      [] [c8PlanOuter] c8PlanInner c8Value rfl).2.2.2.2

/-- Evaluation rules for Except.bind (Except.bind, not the monad's >>=). -/
theorem exbindf_ok {e a b : Type} (x : a) (f : a → Except e b) :
    (Except.ok x).bind f = f x := rfl

theorem exbindf_err {e a b : Type} (er : e) (f : a → Except e b) :
    (Except.error er : Except e a).bind f = Except.error er := rfl

/-- Result characterization of Receive. -/
theorem receive_fst (p : Processor) (data : GoStr) :
    (p.receive data).1 =
      match p.ensureValidatedRes with
      | some e => .error e
      | none =>
        match p.codec.unmarshal data with
        | .error e => .error (.unmarshalFailed e)
        | .ok obj =>
          match p.hashable with
          | some h =>
            match h obj p.hashers with
            | .error e => .error (.overrideFailed "hash" e)
            | .ok obj' => .ok obj'
          | none =>
            match applyHash p.hashers p.hashFields obj with
            | .error e => .error e
            | .ok obj' => .ok obj' := by
  unfold Processor.receive
  cases p.ensureValidatedRes with
  | some e => rfl
  | none =>
    cases p.codec.unmarshal data with
    | error e => rfl
    | ok obj =>
      cases p.hashable with
      | some h =>
        dsimp only
        cases h obj p.hashers <;> rfl
      | none =>
        dsimp only
        cases applyHash p.hashers p.hashFields obj <;> rfl

/-- Result characterization of Load. -/
theorem load_fst (p : Processor) (data : GoStr) :
    (p.load data).1 =
      match p.ensureValidatedRes with
      | some e => .error e
      | none =>
        match p.codec.unmarshal data with
        | .error e => .error (.unmarshalFailed e)
        | .ok obj =>
          match p.decryptable with
          | some d =>
            match d obj p.encryptors with
            | .error e => .error (.overrideFailed "decrypt" e)
            | .ok obj' => .ok obj'
          | none =>
            match applyDecrypt p.encryptors p.decryptFields obj with
            | .error e => .error e
            | .ok obj' => .ok obj' := by
  unfold Processor.load
  cases p.ensureValidatedRes with
  | some e => rfl
  | none =>
    cases p.codec.unmarshal data with
    | error e => rfl
    | ok obj =>
      cases p.decryptable with
      | some d =>
        dsimp only
        cases d obj p.encryptors <;> rfl
      | none =>
        dsimp only
        cases applyDecrypt p.encryptors p.decryptFields obj <;> rfl

/-- Result characterization of Store. -/
theorem store_fst (p : Processor) (obj : Option GoValue) :
    (p.store obj).1 =
      match p.ensureValidatedRes with
      | some e => .error e
      | none =>
        match obj with
        | none => p.marshalOut none
        | some v =>
          match p.encryptable with
          | some e =>
            match e (p.cloneFn v) p.encryptors with
            | .error err => .error (.overrideFailed "encrypt" err)
            | .ok clone' => p.marshalOut (some clone')
          | none =>
            match applyEncrypt p.encryptors p.encryptFields (p.cloneFn v) with
            | .error err => .error err
            | .ok clone' => p.marshalOut (some clone') := by
  unfold Processor.store
  cases p.ensureValidatedRes with
  | some e => rfl
  | none =>
    cases obj with
    | none => rfl
    | some v =>
      cases p.encryptable with
      | some e =>
        dsimp only
        cases e (p.cloneFn v) p.encryptors <;> rfl
      | none =>
        dsimp only
        cases applyEncrypt p.encryptors p.encryptFields (p.cloneFn v) <;> rfl

/-- Result characterization of Send. -/
theorem send_fst (p : Processor) (obj : Option GoValue) :
    (p.send obj).1 =
      match p.ensureValidatedRes with
      | some e => .error e
      | none =>
        match obj with
        | none => p.marshalOut none
        | some v =>
          match (match p.maskable with
            | some m =>
              match m (p.cloneFn v) p.maskers with
              | .error e => Except.error (ProcErr.overrideFailed "mask" e)
              | .ok w => Except.ok w
            | none => applyMask p.maskers p.maskFields (p.cloneFn v)) with
          | .error e => .error e
          | .ok w =>
            match (match p.redactable with
              | some r =>
                match r w with
                | .error e => Except.error (ProcErr.overrideFailed "redact" e)
                | .ok w' => Except.ok w'
              | none => Except.ok (applyRedact p.redactFields w)) with
            | .error e => .error e
            | .ok w' => p.marshalOut (some w') := by
  unfold Processor.send
  cases p.ensureValidatedRes with
  | some e => rfl
  | none =>
    cases obj with
    | none => rfl
    | some v =>
      cases p.maskable with
      | some m =>
        dsimp only
        cases m (p.cloneFn v) p.maskers with
        | error e => rfl
        | ok w =>
          cases p.redactable with
          | some r =>
            dsimp only
            cases r w <;> rfl
          | none => rfl
      | none =>
        dsimp only
        cases applyMask p.maskers p.maskFields (p.cloneFn v) with
        | error e => rfl
        | ok w =>
          cases p.redactable with
          | some r =>
            dsimp only
            cases r w <;> rfl
          | none => rfl

/-- C2: Send and Store never mutate the caller's original value.  Both
operations transform only the deep clone produced by the value's Clone
method (the deep-copy contract is implicit in this tree model, where
values carry no aliasing); the middle component of `send`/`store` is the
caller's value as observable after the call, and it equals the input. -/
theorem C2_outbound_operations_preserve_original (p : Processor) (v : GoValue) :
    (p.send (some v)).2.1 = some v ∧ (p.store (some v)).2.1 = some v := by
  constructor
  · unfold Processor.send
    cases p.ensureValidatedRes with
    | some e => rfl
    | none =>
      cases p.maskable with
      | some m =>
        dsimp only
        cases m (p.cloneFn v) p.maskers with
        | error e => rfl
        | ok w =>
          cases p.redactable with
          | some r =>
            dsimp only
            cases r w <;> rfl
          | none => rfl
      | none =>
        dsimp only
        cases applyMask p.maskers p.maskFields (p.cloneFn v) with
        | error e => rfl
        | ok w =>
          cases p.redactable with
          | some r =>
            dsimp only
            cases r w <;> rfl
          | none => rfl
  · unfold Processor.store
    cases p.ensureValidatedRes with
    | some e => rfl
    | none =>
      cases p.encryptable with
      | some e =>
        dsimp only
        cases e (p.cloneFn v) p.encryptors <;> rfl
      | none =>
        dsimp only
        cases applyEncrypt p.encryptors p.encryptFields (p.cloneFn v) <;> rfl

/-- Validation does not consult the hash plans when the type implements
the Hashable override. -/
theorem ensureValidatedRes_hashFields_irrelevant (p : Processor)
    (hh : p.hashable.isSome = true) (l : List FieldPlan) :
    ({ p with hashFields := l } : Processor).ensureValidatedRes
      = p.ensureValidatedRes := by
  unfold Processor.ensureValidatedRes Processor.validateCapabilities
  cases p.validateCache with
  | some r => rfl
  | none => simp only [hh, if_true]

/-- C4: when the type implements the Hashable override, Receive invokes
only the override: the result does not depend on the compiled receive.hash
field plans (the per-field applyHash traversal is never consulted), and
on the happy path the result is exactly the override's outcome. -/
theorem C4_hashable_override_exclusive (p : Processor)
    (hfn : GoValue → (GoStr → Option Hasher) → Except String GoValue)
    (hh : p.hashable = some hfn) (data : GoStr) (l1 l2 : List FieldPlan) :
    (({ p with hashFields := l1 } : Processor).receive data).1
        = (({ p with hashFields := l2 } : Processor).receive data).1 ∧
    (p.ensureValidatedRes = none → ∀ obj, p.codec.unmarshal data = .ok obj →
      (p.receive data).1 = (match hfn obj p.hashers with
        | .error e => .error (.overrideFailed "hash" e)
        | .ok obj' => .ok obj')) := by
  have hsome : p.hashable.isSome = true := by rw [hh]; rfl
  constructor
  · rw [receive_fst, receive_fst,
      ensureValidatedRes_hashFields_irrelevant p hsome l1,
      ensureValidatedRes_hashFields_irrelevant p hsome l2]
    cases p.ensureValidatedRes with
    | some e => rfl
    | none =>
      show (match p.codec.unmarshal data with
        | .error e => Except.error (ProcErr.unmarshalFailed e)
        | .ok obj =>
          match p.hashable with
          | some h =>
            match h obj p.hashers with
            | .error e => Except.error (ProcErr.overrideFailed "hash" e)
            | .ok obj' => Except.ok obj'
          | none =>
            match applyHash p.hashers l1 obj with
            | .error e => Except.error e
            | .ok obj' => Except.ok obj') =
        (match p.codec.unmarshal data with
        | .error e => Except.error (ProcErr.unmarshalFailed e)
        | .ok obj =>
          match p.hashable with
          | some h =>
            match h obj p.hashers with
            | .error e => Except.error (ProcErr.overrideFailed "hash" e)
            | .ok obj' => Except.ok obj'
          | none =>
            match applyHash p.hashers l2 obj with
            | .error e => Except.error e
            | .ok obj' => Except.ok obj')
      cases p.codec.unmarshal data with
      | error e => rfl
      | ok obj => rw [hh]
  · intro hval obj hunm
    rw [receive_fst, hval, hunm, hh]

theorem C4_hashable_override_exclusive_witness :
    c4Base.hashable = some (fun v _ => .ok v) ∧
    c4Base.ensureValidatedRes = none ∧
    c4Base.codec.unmarshal (gs "x") = .ok (.leaf (.str (gs "x"))) ∧
    ((({ c4Base with hashFields := [c8PlanOuter] } : Processor).receive (gs "x")).1
      = (({ c4Base with hashFields := [] } : Processor).receive (gs "x")).1) ∧
    (c4Base.receive (gs "x")).1 = .ok (.leaf (.str (gs "x"))) := by
  refine ⟨rfl, rfl, rfl, ?_, ?_⟩
  · exact (C4_hashable_override_exclusive c4Base (fun v _ => .ok v) rfl (gs "x")
      [c8PlanOuter] []).1
  · exact (C4_hashable_override_exclusive c4Base (fun v _ => .ok v) rfl (gs "x")
      [] []).2 rfl (.leaf (.str (gs "x"))) rfl

/-- C9: during Load, a text field under load.decrypt whose stored value is
not valid base64 fails with the encoding error (base64DecodeFailed) that
names the field; the decrypt capability is not invoked for that field
(the per-field outcome is the same for every capability, including an
absent one), and the error constructor is distinct from decryptFailed. -/
theorem C9_invalid_base64_is_encoding_error (p : Processor) (data : GoStr)
    (pre post : List FieldPlan) (plan : FieldPlan) (obj obj1 : GoValue) (s : GoStr)
    (hval : p.ensureValidatedRes = none)
    (hdo : p.decryptable = none)
    (hplan : p.decryptFields = pre ++ plan :: post)
    (hsl : plan.isSlice = false) (hmp : plan.isMap = false)
    (hby : plan.isBytes = false)
    (hunm : p.codec.unmarshal data = .ok obj)
    (hpre : applyDecrypt p.encryptors pre obj = .ok obj1)
    (hfv : getLeaf obj1 plan.steps = some (.str s))
    (hbad : decodeB64 s = none) :
    (p.load data).1 = .error (.base64DecodeFailed plan.name) ∧
    (∀ enc?, decryptFV enc? plan (.str s) = .error (.base64DecodeFailed plan.name)) := by
  have hfvstep : ∀ enc?, decryptFV enc? plan (.str s)
      = .error (.base64DecodeFailed plan.name) := by
    intro enc?
    unfold decryptFV
    simp only [hsl, hmp, hby, Bool.false_eq_true, if_false]
    simp only [hbad]
  refine ⟨?_, hfvstep⟩
  have hdec : applyDecrypt p.encryptors p.decryptFields obj
      = .error (.base64DecodeFailed plan.name) := by
    rw [applyDecrypt_eq_applyFV] at hpre
    rw [hplan, applyDecrypt_eq_applyFV, applyFV_append, hpre, exbindf_ok]
    show applyFV _ (plan :: post) obj1 = _
    simp only [applyFV]
    rw [transformStep_some hfv, hfvstep (p.encryptors plan.tagVal), exbind_err,
      exbind_err]
  rw [load_fst, hval, hunm]
  dsimp only
  rw [hdo]
  dsimp only
  rw [hdec]

theorem C9_invalid_base64_is_encoding_error_witness :
    decodeB64 (gs "!") = none ∧
    (c9Proc.load (gs "z")).1 = .error (.base64DecodeFailed "Email") := by
  refine ⟨rfl, ?_⟩
  exact (C9_invalid_base64_is_encoding_error c9Proc (gs "z") [] [] c9Plan
    (.strukt [.leaf (.str (gs "!"))]) (.strukt [.leaf (.str (gs "!"))]) (gs "!")
    (by decide) rfl rfl rfl rfl rfl rfl rfl rfl rfl).1

/-- Registry mutations never touch the validation cache. -/
theorem applyMutations_validateCache (ms : List ConfigMutation) (p : Processor) :
    (applyMutations ms p).validateCache = p.validateCache := by
  induction ms generalizing p with
  | nil => rfl
  | cons m rest ih =>
    cases m with
    | setEnc a e => exact ih (p.setEncryptor a e)
    | setHash a h => exact ih (p.setHasher a h)
    | setMask a mm => exact ih (p.setMasker a mm)

/-- C6: once validation has run (its result `r` is cached), every later
Validate call and every boundary operation sees exactly `r`, no matter
which SetEncryptor/SetHasher/SetMasker mutations happen in between. -/
theorem C6_validation_memoized (p : Processor) (r : Option ProcErr)
    (hr : p.validateCache = some r) (ms : List ConfigMutation) (data : GoStr)
    (obj : Option GoValue) :
    ((applyMutations ms p).validate).1 = r ∧
    (∀ e, r = some e →
      ((applyMutations ms p).receive data).1 = .error e ∧
      ((applyMutations ms p).load data).1 = .error e ∧
      ((applyMutations ms p).store obj).1 = .error e ∧
      ((applyMutations ms p).send obj).1 = .error e) := by
  have hq : (applyMutations ms p).ensureValidatedRes = r := by
    unfold Processor.ensureValidatedRes
    rw [applyMutations_validateCache, hr]
  constructor
  · exact hq
  · intro e hre
    subst hre
    refine ⟨?_, ?_, ?_, ?_⟩
    · rw [receive_fst, hq]
    · rw [load_fst, hq]
    · rw [store_fst, hq]
    · rw [send_fst, hq]

theorem C6_validation_memoized_witness :
    c6Proc.validateCache = some (some c6Err) ∧
    ((applyMutations [.setEnc (gs "aes") c9Enc] c6Proc).validate).1 = some c6Err ∧
    ((applyMutations [.setEnc (gs "aes") c9Enc] c6Proc).receive (gs "d")).1
      = .error c6Err := by
  refine ⟨rfl, ?_, ?_⟩
  · exact (C6_validation_memoized c6Proc (some c6Err) rfl
      [.setEnc (gs "aes") c9Enc] (gs "d") none).1
  · exact ((C6_validation_memoized c6Proc (some c6Err) rfl
      [.setEnc (gs "aes") c9Enc] (gs "d") none).2 c6Err rfl).1

/-- firstMissing reports the first plan whose capability is unregistered. -/
theorem firstMissing_append (reg : GoStr → Bool) (mk : GoStr → String → ProcErr)
    (pre : List FieldPlan) (plan : FieldPlan) (post : List FieldPlan)
    (hpre : ∀ q ∈ pre, reg q.tagVal = true) (hplan : reg plan.tagVal = false) :
    firstMissing reg mk (pre ++ plan :: post) = some (mk plan.tagVal plan.name) := by
  induction pre with
  | nil =>
    simp only [List.nil_append, firstMissing, hplan, Bool.false_eq_true, if_false]
  | cons q rest ih =>
    simp only [List.cons_append, firstMissing, hpre q (List.mem_cons_self _ _),
      if_true]
    exact ih (fun x hx => hpre x (List.mem_cons_of_mem _ hx))

/-- C7: a field tagged store.encrypt:"aes" on a type without the
Encryptable override, with no encryptor registered for "aes" when
validation first runs (and the earlier hasher/decryptor groups passing),
makes Validate return the error naming both "aes" and that field. -/
theorem C7_missing_encryptor_validation_error (p : Processor)
    (pre post : List FieldPlan) (plan : FieldPlan)
    (hcache : p.validateCache = none)
    (hHash : p.hashable.isSome = true ∨
      firstMissing (fun a => (p.hashers a).isSome)
        (fun a f => ProcErr.missingHasher a f) p.hashFields = none)
    (hDec : p.decryptable.isSome = true ∨
      firstMissing (fun a => (p.encryptors a).isSome)
        (fun a f => ProcErr.missingEncryptor a f) p.decryptFields = none)
    (hEncOv : p.encryptable = none)
    (hplan : p.encryptFields = pre ++ plan :: post)
    (hpre : ∀ q ∈ pre, (p.encryptors q.tagVal).isSome = true)
    (htag : plan.tagVal = gs "aes")
    (hmissing : p.encryptors (gs "aes") = none) :
    (p.validate).1 = some (.missingEncryptor (gs "aes") plan.name) := by
  have h1 : (if p.hashable.isSome then (none : Option ProcErr)
      else firstMissing (fun a => (p.hashers a).isSome)
        (fun a f => ProcErr.missingHasher a f) p.hashFields) = none := by
    rcases hHash with h | h
    · simp [h]
    · by_cases hc : p.hashable.isSome <;> simp [hc, h]
  have h2 : (if p.decryptable.isSome then (none : Option ProcErr)
      else firstMissing (fun a => (p.encryptors a).isSome)
        (fun a f => ProcErr.missingEncryptor a f) p.decryptFields) = none := by
    rcases hDec with h | h
    · simp [h]
    · by_cases hc : p.decryptable.isSome <;> simp [hc, h]
  have h3 : (if p.encryptable.isSome then (none : Option ProcErr)
      else firstMissing (fun a => (p.encryptors a).isSome)
        (fun a f => ProcErr.missingEncryptor a f) p.encryptFields)
      = some (ProcErr.missingEncryptor (gs "aes") plan.name) := by
    rw [hEncOv]
    simp only [Option.isSome_none, Bool.false_eq_true, if_false]
    rw [hplan]
    rw [show (gs "aes") = plan.tagVal from htag.symm]
    refine firstMissing_append _ _ pre plan post hpre ?_
    rw [htag, hmissing]
    rfl
  show p.ensureValidatedRes = _
  unfold Processor.ensureValidatedRes
  rw [hcache]
  unfold Processor.validateCapabilities
  rw [h1]
  dsimp only
  rw [h2]
  dsimp only
  rw [h3]

theorem C7_missing_encryptor_validation_error_witness :
    c7Proc.validateCache = none ∧
    c7Proc.encryptors (gs "aes") = none ∧
    (c7Proc.validate).1 = some (.missingEncryptor (gs "aes") "Email") := by
  refine ⟨rfl, rfl, ?_⟩
  exact C7_missing_encryptor_validation_error c7Proc [] [] c9Plan rfl
    (Or.inr rfl) (Or.inr rfl) rfl rfl (fun q hq => absurd hq (List.not_mem_nil q))
    rfl rfl

/-! ## Masking of collections (C5) and mask/redact precedence (C10) -/

/-- C5: under a send.mask directive, a text-sequence field is masked
element by element (length and order preserved: the result is exactly the
elementwise map) and a text-keyed-mapping field is masked value by value
with the key set unchanged. -/
theorem C5_mask_collections (p : Processor) (plan : FieldPlan) (m : Masker)
    (hdiv : p.maskFields.Pairwise (fun a b => stepsDiverge a.steps b.steps = true))
    (hmem : plan ∈ p.maskFields)
    (hm : p.maskers plan.tagVal = some m)
    (v w : GoValue) (hok : applyMask p.maskers p.maskFields v = .ok w) :
    (plan.isSlice = true → ∀ l, getLeaf v plan.steps = some (.strList l) →
      getLeaf w plan.steps = some (.strList (l.map m.mask)) ∧
      (l.map m.mask).length = l.length) ∧
    (plan.isSlice = false → plan.isMap = true → ∀ kvs,
      getLeaf v plan.steps = some (.strMap kvs) →
      getLeaf w plan.steps
        = some (.strMap (kvs.map (fun kv => (kv.1, m.mask kv.2)))) ∧
      (kvs.map (fun kv => (kv.1, m.mask kv.2))).map Prod.fst
        = kvs.map Prod.fst) := by
  rw [applyMask_eq_applyFV] at hok
  constructor
  · intro hsl l hl
    refine ⟨?_, by simp⟩
    refine applyFV_field_result hdiv hmem hl ?_ hok
    unfold maskFV
    rw [hm]
    simp only [hsl, if_true]
  · intro hsl hmp kvs hl
    refine ⟨?_, by simp⟩
    refine applyFV_field_result hdiv hmem hl ?_ hok
    unfold maskFV
    rw [hm]
    simp only [hsl, hmp, Bool.false_eq_true, if_false, if_true]

theorem C5_mask_collections_witness :
    getLeaf (GoValue.strukt [.leaf (.strList [gs "*", gs "*"])]) c5Plan.steps
        = some (.strList ([gs "a", gs "b"].map c5Masker.mask)) ∧
    ([gs "a", gs "b"].map c5Masker.mask).length = 2 := by
  exact (C5_mask_collections c5Proc c5Plan c5Masker
    (List.pairwise_singleton _ _) (List.mem_singleton.mpr rfl) rfl
    (.strukt [.leaf (.strList [gs "a", gs "b"])])
    (.strukt [.leaf (.strList [gs "*", gs "*"])]) rfl).1 rfl [gs "a", gs "b"] rfl

/-- A mask step keeps a scalar-text field scalar-text. -/
theorem maskFV_str {m? : Option Masker} {plan : FieldPlan} {s : GoStr}
    {fv' : FieldValue} (h : maskFV m? plan (.str s) = .ok fv') :
    ∃ s', fv' = .str s' := by
  unfold maskFV at h
  cases m? with
  | none => simp at h
  | some m =>
    by_cases hsl : plan.isSlice
    · simp only [hsl, if_true, Except.ok.injEq] at h
      exact ⟨s, h.symm⟩
    · by_cases hmp : plan.isMap
      · simp only [hsl, hmp, Bool.false_eq_true, if_false, if_true,
          Except.ok.injEq] at h
        exact ⟨s, h.symm⟩
      · simp only [hsl, hmp, Bool.false_eq_true, if_false,
          Except.ok.injEq] at h
        exact ⟨m.mask s, h.symm⟩

/-- Through a traversal whose plans either target path `q` with a
text-preserving transform or diverge from it, a scalar-text field at `q`
stays scalar-text. -/
theorem applyFV_str_at {F : FieldPlan → FieldValue → Except ProcErr FieldValue}
    {plans : List FieldPlan} {q : List Step}
    (hq : ∀ plan ∈ plans, plan.steps = q ∨ stepsDiverge plan.steps q = true)
    (hstr : ∀ plan ∈ plans, ∀ s fv', F plan (.str s) = .ok fv' →
      ∃ s', fv' = .str s')
    {v w : GoValue} {s : GoStr} (h : applyFV F plans v = .ok w)
    (hfv : getLeaf v q = some (.str s)) :
    ∃ s', getLeaf w q = some (.str s') := by
  induction plans generalizing v s with
  | nil =>
    cases h
    exact ⟨s, hfv⟩
  | cons plan rest ih =>
    simp only [applyFV] at h
    cases hst : transformStep (F plan) plan.steps v with
    | error e =>
      simp only [hst, exbind_err] at h
      simp at h
    | ok v1 =>
      rw [hst] at h
      rw [exbind_ok] at h
      have hq' : ∀ r ∈ rest, r.steps = q ∨ stepsDiverge r.steps q = true :=
        fun r hr => hq r (List.mem_cons_of_mem _ hr)
      have hstr' : ∀ r ∈ rest, ∀ s fv', F r (.str s) = .ok fv' →
          ∃ s', fv' = .str s' :=
        fun r hr => hstr r (List.mem_cons_of_mem _ hr)
      rcases hq plan (List.mem_cons_self _ _) with heq | hdq
      · rw [heq, transformStep_some hfv] at hst
        cases hf : F plan (.str s) with
        | error e =>
          rw [hf] at hst
          simp [exbind_err] at hst
        | ok fv' =>
          rw [hf] at hst
          rw [exbind_ok] at hst
          simp only [Except.ok.injEq] at hst
          obtain ⟨s', rfl⟩ := hstr plan (List.mem_cons_self _ _) s fv' hf
          have hv1 : getLeaf v1 q = some (.str s') := by
            rw [← hst]
            exact getLeaf_iff.mpr (getNode_setLeaf_self (getLeaf_iff.mp hfv))
          exact ih hq' hstr' h hv1
      · have hv1 : getLeaf v1 q = some (.str s) := by
          rw [transformStep_getLeaf_diverge hdq hst]
          exact hfv
        exact ih hq' hstr' h hv1

/-- C10: on the send boundary (no Maskable/Redactable overrides), Send
runs all mask plans and then all redact plans on the clone; for a
scalar-text field targeted by both a mask and a redact plan, the value
marshalled out carries exactly the redact replacement literal — redact
deterministically wins. -/
theorem C10_redact_wins_over_mask (p : Processor) (v w : GoValue)
    (pm pr : FieldPlan) (s : GoStr)
    (hval : p.ensureValidatedRes = none)
    (hmo : p.maskable = none) (hro : p.redactable = none)
    (hclone : p.cloneFn v = v)
    (hmmem : pm ∈ p.maskFields) (hrmem : pr ∈ p.redactFields)
    (hsame : pm.steps = pr.steps)
    (hrdiv : p.redactFields.Pairwise (fun a b => stepsDiverge a.steps b.steps = true))
    (hmq : ∀ q ∈ p.maskFields, q.steps = pr.steps ∨
      stepsDiverge q.steps pr.steps = true)
    (hrsl : pr.isSlice = false) (hrmp : pr.isMap = false)
    (hrby : pr.isBytes = false)
    (hfv : getLeaf v pr.steps = some (.str s))
    (hmask : applyMask p.maskers p.maskFields v = .ok w) :
    (p.send (some v)).1 = p.marshalOut (some (applyRedact p.redactFields w)) ∧
    getLeaf (applyRedact p.redactFields w) pr.steps = some (.str pr.tagVal) := by
  constructor
  · rw [send_fst, hval]
    dsimp only
    rw [hmo]
    dsimp only
    rw [hclone, hmask]
    dsimp only
    rw [hro]
  · have hmask' : applyFV (fun plan => maskFV (p.maskers plan.tagVal) plan)
        p.maskFields v = .ok w := by
      rw [← applyMask_eq_applyFV]
      exact hmask
    have hstr : ∃ s', getLeaf w pr.steps = some (.str s') :=
      applyFV_str_at hmq (fun r _ s₀ fv' hf => maskFV_str hf) hmask' hfv
    obtain ⟨s', hw⟩ := hstr
    have hred : redactFV pr (.str s') = .str pr.tagVal := by
      unfold redactFV
      simp only [hrsl, hrmp, Bool.false_eq_true, if_false]
    exact applyFV_field_result hrdiv hrmem hw
      (show Except.ok (redactFV pr (.str s')) = .ok (.str pr.tagVal) by rw [hred])
      (applyRedact_eq_applyFV p.redactFields w)

theorem C10_redact_wins_over_mask_witness :
    getLeaf
      (applyRedact c10Proc.redactFields
        (GoValue.strukt [.leaf (.str (gs "*"))]))
      c10RedactPlan.steps = some (.str (gs "***")) := by
  exact (C10_redact_wins_over_mask c10Proc
    (.strukt [.leaf (.str (gs "j@x"))]) (.strukt [.leaf (.str (gs "*"))])
    c10MaskPlan c10RedactPlan (gs "j@x") rfl rfl rfl rfl
    (List.mem_singleton.mpr rfl) (List.mem_singleton.mpr rfl) rfl
    (List.pairwise_singleton _ _)
    (fun q hq => Or.inl (by rw [List.mem_singleton.mp hq]; rfl))
    rfl rfl rfl rfl rfl).2

theorem tagStep_error {lv : Option GoStr} {valid : GoStr → Bool}
    {mkE : GoStr → CompileErr} {add : GoStr → TypeFieldPlans}
    {plans : TypeFieldPlans} {e : CompileErr}
    (h : tagStep lv valid mkE add plans = .error e) :
    ∃ val, lv = some val ∧ valid val = false ∧ e = mkE val := by
  cases lv with
  | none => simp [tagStep] at h
  | some val =>
    refine ⟨val, rfl, ?_⟩
    simp only [tagStep] at h
    by_cases hv : valid val = true
    · rw [if_pos hv] at h
      simp at h
    · rw [if_neg hv] at h
      simp only [Except.error.injEq] at h
      exact ⟨by revert hv; cases valid val <;> simp, h.symm⟩

theorem tagStep_ok {lv : Option GoStr} {valid : GoStr → Bool}
    {mkE : GoStr → CompileErr} {add : GoStr → TypeFieldPlans}
    {plans plans' : TypeFieldPlans}
    (h : tagStep lv valid mkE add plans = .ok plans') :
    (lv = none ∧ plans' = plans) ∨
      (∃ val, lv = some val ∧ valid val = true ∧ plans' = add val) := by
  cases lv with
  | none =>
    simp only [tagStep, Except.ok.injEq] at h
    exact Or.inl ⟨rfl, h.symm⟩
  | some val =>
    simp only [tagStep] at h
    by_cases hv : valid val = true
    · rw [if_pos hv] at h
      simp only [Except.ok.injEq] at h
      exact Or.inr ⟨val, rfl, hv, h.symm⟩
    · rw [if_neg hv] at h
      simp at h

/-- Inversion for Except bind returning an error. -/
theorem exbind_error_inv {e a b : Type} {x : Except e a} {f : a → Except e b}
    {er : e} (h : (x >>= f) = .error er) :
    x = .error er ∨ ∃ v, x = .ok v ∧ f v = .error er := by
  cases x with
  | error e' =>
    rw [exbind_err] at h
    simp only [Except.error.injEq] at h
    exact Or.inl (by rw [h])
  | ok v =>
    rw [exbind_ok] at h
    exact Or.inr ⟨v, rfl, h⟩

/-- Inversion for Except bind returning a value. -/
theorem exbind_ok_inv {e a b : Type} {x : Except e a} {f : a → Except e b}
    {v' : b} (h : (x >>= f) = .ok v') :
    ∃ v, x = .ok v ∧ f v = .ok v' := by
  cases x with
  | error e' =>
    rw [exbind_err] at h
    simp at h
  | ok v =>
    rw [exbind_ok] at h
    exact ⟨v, rfl, h⟩

/-- An error from processLeaf names a genuinely invalid parameter. -/
theorem processLeaf_error {plans : TypeFieldPlans} {fi pi : List Nat}
    {fn : String} {shape : LeafShape} {tags : List (String × GoStr)}
    {e : CompileErr}
    (h : processLeaf plans fi pi fn shape tags = .error e) :
    errNamesInvalid e = true := by
  unfold processLeaf at h
  rcases exbind_error_inv h with h1 | ⟨plans1, _, h⟩
  · obtain ⟨val, _, hv, he⟩ := tagStep_error h1
    rw [he]
    simp [errNamesInvalid, hv]
  · rcases exbind_error_inv h with h2 | ⟨plans2, _, h⟩
    · obtain ⟨val, _, hv, he⟩ := tagStep_error h2
      rw [he]
      simp [errNamesInvalid, hv]
    · rcases exbind_error_inv h with h3 | ⟨plans3, _, h⟩
      · obtain ⟨val, _, hv, he⟩ := tagStep_error h3
        rw [he]
        simp [errNamesInvalid, hv]
      · rcases exbind_error_inv h with h4 | ⟨plans4, _, h⟩
        · obtain ⟨val, _, hv, he⟩ := tagStep_error h4
          rw [he]
          simp [errNamesInvalid, hv]
        · obtain ⟨val, _, hv, _⟩ := tagStep_error h
          simp at hv

/-- A successful processLeaf implies every present directive was valid. -/
theorem processLeaf_ok_valid {plans plans' : TypeFieldPlans} {fi pi : List Nat}
    {fn : String} {shape : LeafShape} {tags : List (String × GoStr)}
    (h : processLeaf plans fi pi fn shape tags = .ok plans') :
    leafTagsInvalid tags = false := by
  unfold processLeaf at h
  obtain ⟨plans1, h1, h⟩ := exbind_ok_inv h
  obtain ⟨plans2, h2, h⟩ := exbind_ok_inv h
  obtain ⟨plans3, h3, h⟩ := exbind_ok_inv h
  obtain ⟨plans4, h4, h⟩ := exbind_ok_inv h
  have d1 : (match tags.lookup "receive.hash" with
      | some v => !IsValidHashAlgo v
      | none => false) = false := by
    rcases tagStep_ok h1 with ⟨hn, _⟩ | ⟨val, hs, hv, _⟩
    · rw [hn]
    · rw [hs]
      simp [hv]
  have d2 : (match tags.lookup "load.decrypt" with
      | some v => !IsValidEncryptAlgo v
      | none => false) = false := by
    rcases tagStep_ok h2 with ⟨hn, _⟩ | ⟨val, hs, hv, _⟩
    · rw [hn]
    · rw [hs]
      simp [hv]
  have d3 : (match tags.lookup "store.encrypt" with
      | some v => !IsValidEncryptAlgo v
      | none => false) = false := by
    rcases tagStep_ok h3 with ⟨hn, _⟩ | ⟨val, hs, hv, _⟩
    · rw [hn]
    · rw [hs]
      simp [hv]
  have d4 : (match tags.lookup "send.mask" with
      | some v => !IsValidMaskType v
      | none => false) = false := by
    rcases tagStep_ok h4 with ⟨hn, _⟩ | ⟨val, hs, hv, _⟩
    · rw [hn]
    · rw [hs]
      simp [hv]
  unfold leafTagsInvalid
  rw [d1, d2, d3, d4]
  rfl

/-- processLeaf preserves validity of all accumulated plan parameters. -/
theorem processLeaf_planTags {plans plans' : TypeFieldPlans} {fi pi : List Nat}
    {fn : String} {shape : LeafShape} {tags : List (String × GoStr)}
    (h : processLeaf plans fi pi fn shape tags = .ok plans')
    (hv : planTagsValid plans = true) : planTagsValid plans' = true := by
  unfold processLeaf at h
  obtain ⟨plans1, h1, h⟩ := exbind_ok_inv h
  obtain ⟨plans2, h2, h⟩ := exbind_ok_inv h
  obtain ⟨plans3, h3, h⟩ := exbind_ok_inv h
  obtain ⟨plans4, h4, h⟩ := exbind_ok_inv h
  have s1 : planTagsValid plans1 = true := by
    rcases tagStep_ok h1 with ⟨_, hp⟩ | ⟨val, _, hval, hp⟩
    · rw [hp]; exact hv
    · rw [hp]
      simp only [planTagsValid, List.all_append, List.all_cons, List.all_nil,
        Bool.and_true, Bool.and_eq_true] at hv ⊢
      tauto
  have s2 : planTagsValid plans2 = true := by
    rcases tagStep_ok h2 with ⟨_, hp⟩ | ⟨val, _, hval, hp⟩
    · rw [hp]; exact s1
    · rw [hp]
      simp only [planTagsValid, List.all_append, List.all_cons, List.all_nil,
        Bool.and_true, Bool.and_eq_true] at s1 ⊢
      tauto
  have s3 : planTagsValid plans3 = true := by
    rcases tagStep_ok h3 with ⟨_, hp⟩ | ⟨val, _, hval, hp⟩
    · rw [hp]; exact s2
    · rw [hp]
      simp only [planTagsValid, List.all_append, List.all_cons, List.all_nil,
        Bool.and_true, Bool.and_eq_true] at s2 ⊢
      tauto
  have s4 : planTagsValid plans4 = true := by
    rcases tagStep_ok h4 with ⟨_, hp⟩ | ⟨val, _, hval, hp⟩
    · rw [hp]; exact s3
    · rw [hp]
      simp only [planTagsValid, List.all_append, List.all_cons, List.all_nil,
        Bool.and_true, Bool.and_eq_true] at s3 ⊢
      tauto
  rcases tagStep_ok h with ⟨_, hp⟩ | ⟨val, _, hval, hp⟩
  · rw [hp]; exact s4
  · rw [hp]
    simp only [planTagsValid, List.all_append, List.all_cons, List.all_nil,
      Bool.and_true, Bool.and_eq_true] at s4 ⊢
    tauto

/-- A successful compile visits every reachable directive; none was
invalid. -/
theorem buildFieldsRec_ok_no_invalid {fields : List FieldMeta}
    {pi ptri : List Nat} {np : String} {plans plans' : TypeFieldPlans}
    (h : buildFieldsRec fields pi ptri np plans = .ok plans') :
    hasInvalidDirective fields = false := by
  induction fields, pi, ptri, np, plans using buildFieldsRec.induct
    generalizing plans' with
  | case1 pi ptri np plans => simp [hasInvalidDirective]
  | case2 rest pi ptri np plans name index shape tags ih =>
    simp only [buildFieldsRec] at h
    obtain ⟨plans1, hleaf, hrest⟩ := exbind_ok_inv h
    simp only [hasInvalidDirective, processLeaf_ok_valid hleaf, ih plans1 hrest]
    rfl
  | case3 rest pi ptri np plans name index nested ihrest ihnested =>
    simp only [buildFieldsRec] at h
    obtain ⟨plans1, hnested, hrest⟩ := exbind_ok_inv h
    simp only [hasInvalidDirective, ihnested hnested, ihrest plans1 hrest]
    rfl
  | case4 rest pi ptri np plans name index nested ihrest ihnested =>
    simp only [buildFieldsRec] at h
    obtain ⟨plans1, hnested, hrest⟩ := exbind_ok_inv h
    simp only [hasInvalidDirective, ihnested hnested, ihrest plans1 hrest]
    rfl
  | case5 rest pi ptri np plans name index ih =>
    simp only [buildFieldsRec] at h
    obtain ⟨plans1, hok, hrest⟩ := exbind_ok_inv h
    simp only [Except.ok.injEq] at hok
    subst hok
    simp only [hasInvalidDirective]
    exact ih _ hrest

/-- Every compile error names a genuinely invalid parameter. -/
theorem buildFieldsRec_error_names {fields : List FieldMeta}
    {pi ptri : List Nat} {np : String} {plans : TypeFieldPlans}
    {e : CompileErr}
    (h : buildFieldsRec fields pi ptri np plans = .error e) :
    errNamesInvalid e = true := by
  induction fields, pi, ptri, np, plans using buildFieldsRec.induct
    generalizing e with
  | case1 pi ptri np plans => simp [buildFieldsRec] at h
  | case2 rest pi ptri np plans name index shape tags ih =>
    simp only [buildFieldsRec] at h
    rcases exbind_error_inv h with hleaf | ⟨plans1, _, hrest⟩
    · exact processLeaf_error hleaf
    · exact ih plans1 hrest
  | case3 rest pi ptri np plans name index nested ihrest ihnested =>
    simp only [buildFieldsRec] at h
    rcases exbind_error_inv h with hnested | ⟨plans1, _, hrest⟩
    · exact ihnested hnested
    · exact ihrest plans1 hrest
  | case4 rest pi ptri np plans name index nested ihrest ihnested =>
    simp only [buildFieldsRec] at h
    rcases exbind_error_inv h with hnested | ⟨plans1, _, hrest⟩
    · exact ihnested hnested
    · exact ihrest plans1 hrest
  | case5 rest pi ptri np plans name index ih =>
    simp only [buildFieldsRec] at h
    rcases exbind_error_inv h with hok | ⟨plans1, hok, hrest⟩
    · simp at hok
    · simp only [Except.ok.injEq] at hok
      subst hok
      exact ih _ hrest

/-- Compilation only ever emits plans with valid parameters. -/
theorem buildFieldsRec_planTags {fields : List FieldMeta}
    {pi ptri : List Nat} {np : String} {plans plans' : TypeFieldPlans}
    (h : buildFieldsRec fields pi ptri np plans = .ok plans')
    (hv : planTagsValid plans = true) : planTagsValid plans' = true := by
  induction fields, pi, ptri, np, plans using buildFieldsRec.induct
    generalizing plans' with
  | case1 pi ptri np plans =>
    simp only [buildFieldsRec, Except.ok.injEq] at h
    subst h
    exact hv
  | case2 rest pi ptri np plans name index shape tags ih =>
    simp only [buildFieldsRec] at h
    obtain ⟨plans1, hleaf, hrest⟩ := exbind_ok_inv h
    exact ih plans1 hrest (processLeaf_planTags hleaf hv)
  | case3 rest pi ptri np plans name index nested ihrest ihnested =>
    simp only [buildFieldsRec] at h
    obtain ⟨plans1, hnested, hrest⟩ := exbind_ok_inv h
    exact ihrest plans1 hrest (ihnested hnested hv)
  | case4 rest pi ptri np plans name index nested ihrest ihnested =>
    simp only [buildFieldsRec] at h
    obtain ⟨plans1, hnested, hrest⟩ := exbind_ok_inv h
    exact ihrest plans1 hrest (ihnested hnested hv)
  | case5 rest pi ptri np plans name index ih =>
    simp only [buildFieldsRec] at h
    obtain ⟨plans1, hok, hrest⟩ := exbind_ok_inv h
    simp only [Except.ok.injEq] at hok
    subst hok
    exact ih _ hrest hv

/-- C3: a type carrying any directive with an unrecognised capability
parameter makes NewProcessor fail at construction with an error naming
that parameter and its field — no Processor is returned; and whenever
construction succeeds, every compiled plan's parameter is valid, so this
condition can never surface as a later runtime error. -/
theorem C3_invalid_param_fails_construction (md : TypeMeta) (codec : Codec)
    (bh : GoStr → Option Hasher) (bm : GoStr → Option Masker)
    (ov : TypeOverrides) :
    (hasInvalidDirective md.fields = true →
      ∃ e, newProcessor md codec bh bm ov = .error e ∧ errNamesInvalid e = true) ∧
    (∀ pr, newProcessor md codec bh bm ov = .ok pr →
      pr.hashFields.all (fun pl => IsValidHashAlgo pl.tagVal) = true ∧
      pr.decryptFields.all (fun pl => IsValidEncryptAlgo pl.tagVal) = true ∧
      pr.encryptFields.all (fun pl => IsValidEncryptAlgo pl.tagVal) = true ∧
      pr.maskFields.all (fun pl => IsValidMaskType pl.tagVal) = true) := by
  constructor
  · intro hinv
    cases hb : buildFieldPlans md with
    | error e =>
      refine ⟨e, ?_, buildFieldsRec_error_names hb⟩
      unfold newProcessor
      rw [hb]
    | ok plans =>
      rw [buildFieldsRec_ok_no_invalid hb] at hinv
      cases hinv
  · intro pr hpr
    cases hb : buildFieldPlans md with
    | error e =>
      unfold newProcessor at hpr
      rw [hb] at hpr
      cases hpr
    | ok plans =>
      unfold newProcessor at hpr
      rw [hb] at hpr
      simp only [Except.ok.injEq] at hpr
      have hvalid : planTagsValid plans = true := buildFieldsRec_planTags hb rfl
      simp only [planTagsValid, Bool.and_eq_true] at hvalid
      subst hpr
      exact ⟨hvalid.1.1.1, hvalid.1.1.2, hvalid.1.2, hvalid.2⟩

theorem C3_invalid_param_fails_construction_witness :
    hasInvalidDirective c3Meta.fields = true ∧
    ∃ e, newProcessor c3Meta c4Codec (fun _ => none) (fun _ => none)
        { hashable := none, decryptable := none, encryptable := none,
          maskable := none, redactable := none, cloneFn := fun v => v }
        = .error e ∧ errNamesInvalid e = true := by
  have hinv : hasInvalidDirective c3Meta.fields = true := by
    simp only [c3Meta, hasInvalidDirective, leafTagsInvalid]
    decide
  refine ⟨hinv, ?_⟩
  exact (C3_invalid_param_fails_construction c3Meta c4Codec (fun _ => none)
    (fun _ => none)
    { hashable := none, decryptable := none, encryptable := none,
      maskable := none, redactable := none, cloneFn := fun v => v }).1 hinv

/-! ## Store-then-Load round-trip (C1) -/

/-- C1: with the same encryptor registered on both sides (its Decrypt
inverting its Encrypt), the same plan set for store.encrypt and
load.decrypt (pairwise independent field paths), a true deep-copy Clone,
and a codec whose Unmarshal inverts its Marshal, a successful Store
followed by Load returns the whole value — in particular every tagged
field — to its original plaintext. -/
theorem C1_store_load_roundtrip (p : Processor) (v : GoValue) (data : GoStr)
    (hval : p.ensureValidatedRes = none)
    (hEncOv : p.encryptable = none) (hDecOv : p.decryptable = none)
    (hplans : p.decryptFields = p.encryptFields)
    (hdiv : p.encryptFields.Pairwise (fun a b => stepsDiverge a.steps b.steps = true))
    (hinv : ∀ algo, EncInverts (p.encryptors algo))
    (hclone : p.cloneFn v = v)
    (hcodec : ∀ w bs, p.codec.marshal (some w) = .ok bs →
      p.codec.unmarshal bs = .ok w)
    (hstore : (p.store (some v)).1 = .ok data) :
    (p.load data).1 = .ok v := by
  rw [store_fst, hval] at hstore
  dsimp only at hstore
  rw [hEncOv] at hstore
  dsimp only at hstore
  rw [hclone] at hstore
  cases henc : applyEncrypt p.encryptors p.encryptFields v with
  | error e =>
    rw [henc] at hstore
    dsimp only at hstore
    simp at hstore
  | ok w =>
    rw [henc] at hstore
    dsimp only at hstore
    unfold Processor.marshalOut at hstore
    cases hm : p.codec.marshal (some w) with
    | error e =>
      rw [hm] at hstore
      simp at hstore
    | ok bs =>
      rw [hm] at hstore
      simp only [Except.ok.injEq] at hstore
      subst hstore
      have hunm : p.codec.unmarshal bs = .ok w := hcodec w bs hm
      rw [load_fst, hval]
      dsimp only
      rw [hunm]
      dsimp only
      rw [hDecOv]
      dsimp only
      have hdec : applyDecrypt p.encryptors p.decryptFields w = .ok v := by
        rw [hplans, applyDecrypt_eq_applyFV]
        exact @applyFV_roundtrip
          (fun plan => encryptFV (p.encryptors plan.tagVal) plan)
          (fun plan => decryptFV (p.encryptors plan.tagVal) plan)
          p.encryptFields
          (fun plan _ fv fv' hf => decryptFV_encryptFV (hinv plan.tagVal) plan hf)
          hdiv v w (by rw [← applyEncrypt_eq_applyFV]; exact henc)
      rw [hdec]

theorem C1_store_load_roundtrip_witness :
    (c1Proc.store (some c1Value)).1 = .ok (gs "D") ∧
    (c1Proc.load (gs "D")).1 = .ok c1Value := by
  have hstore : (c1Proc.store (some c1Value)).1 = .ok (gs "D") := by rfl
  refine ⟨hstore, ?_⟩
  refine C1_store_load_roundtrip c1Proc c1Value (gs "D") (by decide) rfl rfl rfl
    (List.pairwise_singleton _ _) ?_ rfl ?_ hstore
  · intro algo enc heq pt ct he
    by_cases ha : algo = gs "aes"
    · have hsome : c1Proc.encryptors algo = some c1Enc := by
        simp [c1Proc, ha]
      rw [hsome] at heq
      simp only [Option.some.injEq] at heq
      subst heq
      simp only [c1Enc] at he ⊢
      simp only [Except.ok.injEq] at he
      subst he
      simp
    · have hnone : c1Proc.encryptors algo = none := by
        simp [c1Proc, ha]
      rw [hnone] at heq
      cases heq
  · intro w bs hm
    have hm' : (if w = c1EncW then (Except.ok (gs "D") : Except String GoStr)
        else .error "unsupported") = .ok bs := hm
    by_cases hw : w = c1EncW
    · rw [if_pos hw] at hm'
      simp only [Except.ok.injEq] at hm'
      subst hw
      show (if bs = gs "D" then Except.ok c1EncW else Except.error "bad")
        = .ok c1EncW
      rw [if_pos hm'.symm]
    · rw [if_neg hw] at hm'
      cases hm'

end Cereal
